import Mathlib

/-!
Verification of the KiranaPlus receipt-OCR core: the line reconstructor
(`reconstruct_receipt_lines`), the text cleaner and pattern extractor
(`extract_items_from_text`), the hybrid similarity scorer
(`calculate_similarity`) and the fuzzy inventory matcher
(`fuzzy_match_inventory_item`), shallowly embedded from
`backend/ocr_service.py` and `backend/routes/ocr_routes.py`.

Numbers are modelled with `Nat` and `Rat` (the Python floats on these code
paths hold small decimal fractions and the algorithms only add, divide and
compare, so exact rationals are the intended semantics), strings with
`String` and `List Char` restricted to the ASCII behaviour of `str.lower`,
`\s`, `\d`, `str.isalnum` and friends.  All definitions are structurally
recursive so that concrete runs reduce in the kernel.
-/

namespace KiranaPlus

/-! ## Character helpers (ASCII behaviour of the Python primitives used) -/

/-- ASCII `str.lower` on a single character. -/
def asciiLower (c : Char) : Char :=
  if 'A' ≤ c ∧ c ≤ 'Z' then Char.ofNat (c.toNat + 32) else c

/-- Python regex `\s` / `str.strip` whitespace (ASCII part). -/
def isPyWs (c : Char) : Bool :=
  c = ' ' || c = '\t' || c = '\n' || c = '\r' || c = '\x0b' || c = '\x0c'

/-- Python regex `\d` (ASCII part). -/
def isDigitC (c : Char) : Bool := c.isDigit

/-- Python regex `\w` (word character, ASCII part): used for `\b` boundaries. -/
def isWordChar (c : Char) : Bool := c.isAlphanum || c = '_'

/-- `[a-z]`. -/
def isLowerAZ (c : Char) : Bool := 'a' ≤ c && c ≤ 'z'

/-- `str.strip()`: drop leading and trailing whitespace. -/
def pyStrip (l : List Char) : List Char :=
  ((l.dropWhile isPyWs).reverse.dropWhile isPyWs).reverse

/-- `str.strip()` on a `String`. -/
def pyStripStr (s : String) : String := ⟨pyStrip s.data⟩

/-- ASCII `str.lower()` on a `String`. -/
def lowerStr (s : String) : String := ⟨s.data.map asciiLower⟩

/-- Helper of `pySplit`: `acc` is the current token, reversed. -/
def pySplitAux (acc : List Char) : List Char → List (List Char)
  | [] => if acc = [] then [] else [acc.reverse]
  | c :: cs =>
    if isPyWs c then
      if acc = [] then pySplitAux [] cs else acc.reverse :: pySplitAux [] cs
    else pySplitAux (c :: acc) cs

/-- `str.split()` (split on whitespace runs, no empty tokens). -/
def pySplit (l : List Char) : List (List Char) := pySplitAux [] l

/-- `str(int(ds) * 1000)` for a decimal digit run `ds`: the decimal digits
of `int(ds)` are `ds` without its leading zeros (just `"0"` when the value
is zero), and multiplying a positive value by 1000 appends three zeros. -/
def timesThousand (ds : List Char) : List Char :=
  let t := ds.dropWhile (fun c => c = '0')
  if t = [] then ['0'] else t ++ ['0', '0', '0']

/-- Round-half-even to an integer, as Python `round` behaves on exact values. -/
def roundHalfEven (q : ℚ) : ℤ :=
  let n := ⌊q⌋
  let f := q - n
  if f < 1/2 then n else if 1/2 < f then n + 1 else if n % 2 = 0 then n else n + 1

/-- Python `round(x, 2)`. -/
def pyRound2 (q : ℚ) : ℚ := (roundHalfEven (q * 100) : ℚ) / 100

/-- Python `round(x, 3)`. -/
def pyRound3 (q : ℚ) : ℚ := (roundHalfEven (q * 1000) : ℚ) / 1000

/-! ## The line cleaning transform
(`extract_items_from_text`, `backend/routes/ocr_routes.py` lines 52-63). -/

/-- `re.sub(r'[<>]', '', line)`. -/
def stripAngles (l : List Char) : List Char :=
  l.filter (fun c => !(c = '<' || c = '>'))

/-- `re.sub(r':', '', line)`. -/
def stripColons (l : List Char) : List Char :=
  l.filter (fun c => !(c = ':'))

/-- The character class of `re.sub(r'[*/×\-–]', ' x ', line)`. -/
def isNoiseSym (c : Char) : Bool :=
  c = '*' || c = '/' || c = '×' || c = '-' || c = '–'

/-- `re.sub(r'[*/×\-–]', ' x ', line)`: each noise symbol becomes a spaced x. -/
def noiseReplace (l : List Char) : List Char :=
  l.flatMap (fun c => if isNoiseSym c then [' ', 'x', ' '] else [c])

/-- The kept class of `re.sub(r'[^a-z0-9\s.x]', '', line)`. -/
def isKeptChar (c : Char) : Bool :=
  isLowerAZ c || isDigitC c || isPyWs c || c = '.' || c = 'x'

/-- `re.sub(r'[^a-z0-9\s.x]', '', line)`. -/
def stripDisallowed (l : List Char) : List Char := l.filter isKeptChar

/-- Whether `\b(\d+)k\b(?![0-9])` can fire here: the pending digit run `run`
is nonempty, a word boundary precedes it (`bnd`), the current character is
the `k`, and the character after the `k` is absent or not a word character
(which subsumes the `(?![0-9])` lookahead, digits being word characters). -/
def kFires (bnd : Bool) (run : List Char) (c : Char) (cs : List Char) : Bool :=
  c = 'k' && !(run = []) && bnd &&
    (match cs with
     | [] => true
     | d :: _ => !isWordChar d)

/-- `re.sub(r'\b(\d+)k\b(?![0-9])', lambda m: str(int(m.group(1)) * 1000), line)`:
left-to-right scan.  `bnd` records whether a word boundary precedes the
pending digit run `run` (no match can start inside a digit run, `\b` failing
between two word characters, so a whole pending run is flushed when the
match attempt fails). -/
def kExpandAux (bnd : Bool) (run : List Char) : List Char → List Char
  | [] => run
  | c :: cs =>
    if isDigitC c then kExpandAux bnd (run ++ [c]) cs
    else if kFires bnd run c cs then
      timesThousand run ++ kExpandAux false [] cs
    else run ++ c :: kExpandAux (!isWordChar c) [] cs

/-- The digit-then-k substitution on a whole line (a boundary precedes the
start of the string). -/
def kExpand (l : List Char) : List Char := kExpandAux true [] l

/-- `re.sub(r'\s+', ' ', line)`: squeeze each whitespace run to one space.
`prevWs` records whether the previous character was whitespace. -/
def squeezeAux (prevWs : Bool) : List Char → List Char
  | [] => []
  | c :: cs =>
    if isPyWs c then
      if prevWs then squeezeAux true cs else ' ' :: squeezeAux true cs
    else c :: squeezeAux false cs

/-- `re.sub(r'\s+', ' ', line)`. -/
def squeezeWs (l : List Char) : List Char := squeezeAux false l

/-- The full cleaning transform of `extract_items_from_text`
(`ocr_routes.py` lines 52-63): lowercase and strip, drop angle brackets and
colons, replace receipt-noise symbols by a spaced x, drop disallowed
characters, expand digits-then-k as times 1000, collapse whitespace and
strip. -/
def cleanLine (s : String) : String :=
  let l1 := pyStrip (s.data.map asciiLower)
  let l2 := stripColons (stripAngles l1)
  let l3 := noiseReplace l2
  let l4 := stripDisallowed l3
  let l5 := kExpand l4
  ⟨pyStrip (squeezeWs l5)⟩

example : cleanLine "  Maggi*2k " = "maggi x 2000" := by decide
example : cleanLine "2 kg" = "2 kg" := by decide
example : cleanLine "A<b>:c2kk" = "abc2kk" := by decide
example : cleanLine "buy 02k now" = "buy 2000 now" := by decide

/-! ## Levenshtein distance (`ocr_routes.py` lines 15-30), the row-by-row
dynamic program of the source. -/

/-- Inner loop: build `current_row` past its first cell.  `prev` is the
suffix of `previous_row` from index `j`, `last` the last value appended to
`current_row`. -/
def levInner (c1 : Char) (s2 : List Char) (prev : List Nat) (last : Nat) : List Nat :=
  match s2 with
  | [] => []
  | c2 :: cs =>
    match prev with
    | [] => []
    | pj :: prest =>
      let ins := prest.headD 0 + 1
      let del := last + 1
      let sub := pj + (if c1 = c2 then 0 else 1)
      let v := min ins (min del sub)
      v :: levInner c1 cs prest v

/-- Outer loop over `s1`, carrying `previous_row` and the row index. -/
def levLoop (s2 : List Char) (prev : List Nat) (i : Nat) (s1 : List Char) : List Nat :=
  match s1 with
  | [] => prev
  | c1 :: rest => levLoop s2 ((i + 1) :: levInner c1 s2 prev (i + 1)) (i + 1) rest

/-- The dynamic program, assuming `len(s1) >= len(s2)` was arranged. -/
def levCore (s1 s2 : List Char) : Nat :=
  if s2.length = 0 then s1.length
  else (levLoop s2 (List.range (s2.length + 1)) 0 s1).getLastD 0

/-- `levenshtein_distance`: the source first swaps so the longer string is
first. -/
def levenshtein_distance (s1 s2 : List Char) : Nat :=
  if s1.length < s2.length then levCore s2 s1 else levCore s1 s2

example : levenshtein_distance "zzzz".data "a".data = 4 := by decide
example : levenshtein_distance "kitten".data "sitting".data = 3 := by decide
example : levenshtein_distance "a".data "abcd".data = 3 := by decide
example : levenshtein_distance "".data "".data = 0 := by decide

/-! ## Pattern extraction (`extract_items_from_text`, `ocr_routes.py`
lines 32-148).  The six anchored regular expressions are implemented
directly: lazy `([a-z\s]+?)` tries the shortest nonempty prefix first, and
the greedy runs (`\s+`, `[\d.]+`, `[a-z0-9]+`) are forced because each is
followed by a character its class excludes (or by the end anchor). -/

/-- `[a-z\s]`. -/
def isNameChar (c : Char) : Bool := isLowerAZ c || isPyWs c

/-- `[\d.]`. -/
def isQtyChar (c : Char) : Bool := isDigitC c || c = '.'

/-- `[a-z0-9]`. -/
def isUnitChar (c : Char) : Bool := isLowerAZ c || isDigitC c

/-- Lazy nonempty group: shortest prefix of `cls`-characters after which
`rest` succeeds, as the regex engine backtracks `+?`. -/
def lazyGroupAux {α : Type} (cls : Char → Bool) (rest : List Char → Option α)
    (accRev : List Char) (l : List Char) : Option (List Char × α) :=
  match l with
  | [] => none
  | c :: cs =>
    if cls c then
      match rest cs with
      | some a => some ((c :: accRev).reverse, a)
      | none => lazyGroupAux cls rest (c :: accRev) cs
    else none

/-- `\s+x\s+([\d.]+)\s+([a-z0-9]+)$`. -/
def restXQU (l : List Char) : Option (List Char × List Char) :=
  let s1 := l.span isPyWs
  if s1.1 = [] then none
  else
    match s1.2 with
    | 'x' :: l2 =>
      let s2 := l2.span isPyWs
      if s2.1 = [] then none
      else
        let s3 := s2.2.span isQtyChar
        if s3.1 = [] then none
        else
          let s4 := s3.2.span isPyWs
          if s4.1 = [] then none
          else
            let s5 := s4.2.span isUnitChar
            if s5.1 = [] || !(s5.2 = []) then none else some (s3.1, s5.1)
    | _ => none

/-- `\s+x\s+([\d.]+)$`. -/
def restXQ (l : List Char) : Option (List Char) :=
  let s1 := l.span isPyWs
  if s1.1 = [] then none
  else
    match s1.2 with
    | 'x' :: l2 =>
      let s2 := l2.span isPyWs
      if s2.1 = [] then none
      else
        let s3 := s2.2.span isQtyChar
        if s3.1 = [] || !(s3.2 = []) then none else some s3.1
    | _ => none

/-- `\s+([\d.]+)\s+([a-z0-9]+)$`. -/
def restQU (l : List Char) : Option (List Char × List Char) :=
  let s1 := l.span isPyWs
  if s1.1 = [] then none
  else
    let s2 := s1.2.span isQtyChar
    if s2.1 = [] then none
    else
      let s3 := s2.2.span isPyWs
      if s3.1 = [] then none
      else
        let s4 := s3.2.span isUnitChar
        if s4.1 = [] || !(s4.2 = []) then none else some (s2.1, s4.1)

/-- `\s+([\d.]+)$`. -/
def restQ (l : List Char) : Option (List Char) :=
  let s1 := l.span isPyWs
  if s1.1 = [] then none
  else
    let s2 := s1.2.span isQtyChar
    if s2.1 = [] || !(s2.2 = []) then none else some s2.1

/-- `^([a-z\s]+?)\s+x\s+([\d.]+)\s+([a-z0-9]+)$`; result: (group 1, group 3). -/
def tryPat1 (l : List Char) : Option (List Char × List Char) :=
  (lazyGroupAux isNameChar restXQU [] l).map (fun p => (p.1, p.2.2))

/-- `^([a-z\s]+?)\s+x\s+([\d.]+)$`. -/
def tryPat2 (l : List Char) : Option (List Char × List Char) :=
  (lazyGroupAux isNameChar restXQ [] l).map (fun p => (p.1, []))

/-- `^([a-z\s]+?)\s+([\d.]+)\s+([a-z0-9]+)$`. -/
def tryPat3 (l : List Char) : Option (List Char × List Char) :=
  (lazyGroupAux isNameChar restQU [] l).map (fun p => (p.1, p.2.2))

/-- `^([a-z\s]+?)\s+([\d.]+)$`. -/
def tryPat4 (l : List Char) : Option (List Char × List Char) :=
  (lazyGroupAux isNameChar restQ [] l).map (fun p => (p.1, []))

/-- `^([a-z]+)\s+x\s+([\d.]+)\s+([a-z0-9]+)$`: the greedy letter run is
forced, the next required character being whitespace. -/
def tryPat5 (l : List Char) : Option (List Char × List Char) :=
  let s1 := l.span isLowerAZ
  if s1.1 = [] then none
  else (restXQU s1.2).map (fun p => (s1.1, p.2))

/-- `^([a-z\s]+)$`. -/
def tryPat6 (l : List Char) : Option (List Char × List Char) :=
  if !(l = []) && l.all isNameChar then some (l, []) else none

/-- The ordered pattern list of the source. -/
def patList : List (List Char → Option (List Char × List Char)) :=
  [tryPat1, tryPat2, tryPat3, tryPat4, tryPat5, tryPat6]

/-- `re.search(r'[a-z]', name_part)` and the length-2 check: a failing name
sends the loop on to the next pattern (`continue`). -/
def validName (np : List Char) : Bool := np.any isLowerAZ && decide (2 ≤ np.length)

/-- The pattern loop: first pattern that matches and yields a valid stripped
name wins; returns (name_part, unit_part). -/
def tryPatterns (ps : List (List Char → Option (List Char × List Char)))
    (l : List Char) : Option (List Char × List Char) :=
  match ps with
  | [] => none
  | p :: rest =>
    match p l with
    | some r =>
      let name_part := pyStrip r.1
      if validName name_part then some (name_part, pyStrip r.2) else tryPatterns rest l
    | none => tryPatterns rest l

example : tryPatterns patList "sugar 2 kg".data = some ("sugar".data, "kg".data) := by decide
example : tryPatterns patList "zzzz".data = some ("zzzz".data, []) := by decide
example : tryPatterns patList "atta x 5 kg".data = some ("atta".data, "kg".data) := by decide
example : tryPatterns patList "a1b2".data = none := by decide

/-! ## Data model of the extraction pipeline. -/

/-- A catalog entry, with the fields the matching code reads (`itemName`,
`brand`, `category`, `unitSize`, `_id`, `itemId`, `sellingPrice`, `mrp`). -/
structure InventoryItem where
  itemName : String
  brand : String
  category : String
  unitSize : String
  mongoId : String
  itemId : String
  sellingPrice : Option ℚ
  mrp : Option ℚ
deriving DecidableEq

/-- The `fuzzy_match` sub-dictionary of an extracted item. -/
structure FuzzyInfo where
  similarity_score : ℚ
  original_extracted : String
  matched_field : String
  inventory_id : String
  item_id : String
  selling_price : Option ℚ
  mrp : Option ℚ
deriving DecidableEq

/-- One extracted line item as built by `extract_items_from_text`. -/
structure ExtractedItem where
  item : String
  quantity : Option ℚ
  unit : Option String
  confidence : ℚ
  fuzzy_match : Option FuzzyInfo
deriving DecidableEq

/-- `valid_units` (`ocr_routes.py` lines 36-38). -/
def valid_units : List String :=
  ["kg", "g", "pc", "pcs", "gram", "grams", "piece", "pieces",
   "ltr", "litre", "liter", "ml", "c", "cup", "cups", "bottle", "bottles",
   "k6", "k0", "gu"]

/-- `unit_mapping` (`ocr_routes.py` lines 40-43). -/
def unit_mapping : List (String × String) :=
  [("gm", "g"), ("gms", "g"), ("kgs", "kg"), ("k6", "kg"), ("k0", "kg"),
   ("gu", "g"), ("l", "ltr"), ("liters", "ltr"), ("litres", "ltr"),
   ("pcs", "pc"), ("pieces", "pc")]

/-- ASCII uppercase of one character. -/
def asciiUpper (c : Char) : Char :=
  if 'a' ≤ c ∧ c ≤ 'z' then Char.ofNat (c.toNat - 32) else c

/-- ASCII `str.title()`: first character of each alphabetic run uppercased,
the rest lowercased. -/
def titleAux (prevAlpha : Bool) (l : List Char) : List Char :=
  match l with
  | [] => []
  | c :: cs =>
    (if c.isAlpha && !prevAlpha then asciiUpper c else asciiLower c) ::
      titleAux c.isAlpha cs

/-- ASCII `str.title()` on a `String`. -/
def titleStr (s : String) : String := ⟨titleAux false s.data⟩

/-- Build the item dictionary for a line whose pattern matched, from
`ocr_routes.py` lines 86-135: the closest-Levenshtein inventory match when
the catalog is nonempty (lines 86-117), the unmatched title-cased item
otherwise (lines 119-135).  Both dictionaries carry `quantity: None`.
`fb` stands for the external `get_intelligent_unit_fallback` collaborator
(a language-model call with a keyword-table fallback, excluded from the
core). -/
def buildItem (fb : String → String) (inventory_items : List InventoryItem)
    (confidence : ℚ) (name_part unit_part : String) : ExtractedItem :=
  match inventory_items with
  | [] =>
    let unit1 :=
      match unit_mapping.lookup unit_part with
      | some u => u
      | none =>
        if unit_part = "" || !(valid_units.contains unit_part) then fb name_part
        else unit_part
    { item := titleStr name_part, quantity := none,
      unit := if unit1 = "" then none else some unit1,
      confidence := pyRound2 confidence, fuzzy_match := none }
  | it0 :: restInv =>
    let distOf := fun (item : InventoryItem) =>
      (item, levenshtein_distance (lowerStr name_part).data (lowerStr item.itemName).data)
    let best := (restInv.map distOf).foldl
      (fun b x => if x.2 < b.2 then x else b) (distOf it0)
    let closest_item := best.1
    let min_dist := best.2
    let max_len := max name_part.length closest_item.itemName.length
    let similarity_score : ℚ :=
      if 0 < max_len then 1 - (min_dist : ℚ) / (max_len : ℚ) else 0
    let final_name := closest_item.itemName
    let inventory_unit := lowerStr closest_item.unitSize
    let final_unit :=
      if !(inventory_unit = "") && valid_units.contains inventory_unit then
        inventory_unit
      else if !(unit_part = "") then
        match unit_mapping.lookup unit_part with
        | some u => u
        | none => unit_part
      else fb final_name
    { item := final_name, quantity := none, unit := some final_unit,
      confidence := pyRound2 confidence,
      fuzzy_match := some
        { similarity_score := pyRound3 similarity_score,
          original_extracted := name_part,
          matched_field := "itemName",
          inventory_id := closest_item.mongoId,
          item_id := closest_item.itemId,
          selling_price := closest_item.sellingPrice,
          mrp := closest_item.mrp } }

/-- One line of `extract_items_from_text` (`ocr_routes.py` lines 47-146):
confidence filter, lowercase-strip, length filter, cleaning, pattern loop,
then the item built by `buildItem`. -/
def processLine (fb : String → String) (inventory_items : List InventoryItem)
    (tc : String × ℚ) : Option ExtractedItem :=
  if tc.2 < 1/4 then none
  else
    let line0 := pyStrip (tc.1.data.map asciiLower)
    if line0.length < 2 then none
    else
      let line := pyStrip (squeezeWs (kExpand (stripDisallowed
        (noiseReplace (stripColons (stripAngles line0))))))
      match tryPatterns patList line with
      | none => none
      | some r => some (buildItem fb inventory_items tc.2 ⟨r.1⟩ ⟨r.2⟩)

/-- `extract_items_from_text`: each surviving line contributes at most one
item (the source appends once and breaks out of the pattern loop); a
per-line exception is caught and the line skipped, which the total model
has no analogue of. -/
def extract_items_from_text (fb : String → String)
    (inventory_items : List InventoryItem) (texts : List (String × ℚ)) :
    List ExtractedItem :=
  texts.filterMap (processLine fb inventory_items)

/-- A sample catalog entry for concrete runs. -/
def sampleItemA : InventoryItem :=
  { itemName := "a", brand := "", category := "", unitSize := "",
    mongoId := "id0", itemId := "it0", sellingPrice := none, mrp := none }

example :
    extract_items_from_text (fun _ => "pc") [] [("sugar 2 kg", 9/10)] =
      [{ item := "Sugar", quantity := none, unit := some "kg",
         confidence := 9/10, fuzzy_match := none }] := by
  have hpat : tryPatterns patList (pyStrip (squeezeWs (kExpand (stripDisallowed
      (noiseReplace (stripColons (stripAngles
        (pyStrip ("sugar 2 kg".data.map asciiLower))))))))) =
      some ("sugar".data, "kg".data) := by decide
  have hlen : (pyStrip ("sugar 2 kg".data.map asciiLower)).length = 10 := by decide
  simp only [extract_items_from_text, List.filterMap, processLine, buildItem, hlen, hpat]
  norm_num [pyRound2, roundHalfEven]
  decide

example :
    extract_items_from_text (fun _ => "pc") [sampleItemA] [("zzzz", 9/10)] =
      [{ item := "a", quantity := none, unit := some "pc", confidence := 9/10,
         fuzzy_match := some
           { similarity_score := 0, original_extracted := "zzzz",
             matched_field := "itemName", inventory_id := "id0",
             item_id := "it0", selling_price := none, mrp := none } }] := by
  have hmap : "zzzz".data.map asciiLower = "zzzz".data := by decide
  have hpat : tryPatterns patList (pyStrip (squeezeWs (kExpand (stripDisallowed
      (noiseReplace (stripColons (stripAngles (pyStrip "zzzz".data)))))))) =
      some ("zzzz".data, []) := by decide
  have hlen : (pyStrip "zzzz".data).length = 4 := by decide
  have hlev : levenshtein_distance (lowerStr ⟨"zzzz".data⟩).data
      (lowerStr "a").data = 4 := by decide
  simp only [extract_items_from_text, List.filterMap, processLine, buildItem,
    sampleItemA, hmap, hlen, hpat, List.map_nil, List.foldl_nil, hlev]
  have hl1 : ("a" : String).length = 1 := by decide
  have hlow : lowerStr "" = "" := by decide
  norm_num [pyRound2, pyRound3, roundHalfEven, hl1, hlow]

/-! ## Line reconstruction (`reconstruct_receipt_lines`, `ocr_service.py`
lines 119-155). -/

/-- One OCR detection: bounding polygon (pixel points as (x, y)), recognized
text, confidence. -/
structure RawFragment where
  bbox : List (ℚ × ℚ)
  text : String
  confidence : ℚ
deriving DecidableEq

/-- y of the first polygon corner, the primary Python sort key
(`x[0][0][1]`).  Total with a default; `reconstruct_receipt_lines` refuses
empty polygons before sorting, where Python's key function raises. -/
def fragKeyY (f : RawFragment) : ℚ := (f.bbox.headD (0, 0)).2

/-- x of the first polygon corner, the secondary sort key (`x[0][0][0]`). -/
def fragKeyX (f : RawFragment) : ℚ := (f.bbox.headD (0, 0)).1

/-- The non-strict lexicographic order of the Python key tuples. -/
def keyOrder (f g : RawFragment) : Prop :=
  fragKeyY f < fragKeyY g ∨ (fragKeyY f = fragKeyY g ∧ fragKeyX f ≤ fragKeyX g)

instance : DecidableRel keyOrder := fun f g => by
  unfold keyOrder; infer_instance

instance : IsTotal RawFragment keyOrder := by
  constructor
  intro a b
  unfold keyOrder
  rcases lt_trichotomy (fragKeyY a) (fragKeyY b) with h | h | h
  · exact Or.inl (Or.inl h)
  · rcases le_total (fragKeyX a) (fragKeyX b) with h2 | h2
    · exact Or.inl (Or.inr ⟨h, h2⟩)
    · exact Or.inr (Or.inr ⟨h.symm, h2⟩)
  · exact Or.inr (Or.inl h)

instance : IsTrans RawFragment keyOrder := by
  constructor
  intro a b c hab hbc
  unfold keyOrder at *
  rcases hab with h1 | ⟨h1, h1x⟩
  · rcases hbc with h2 | ⟨h2, _⟩
    · exact Or.inl (h1.trans h2)
    · exact Or.inl (h2 ▸ h1)
  · rcases hbc with h2 | ⟨h2, h2x⟩
    · exact Or.inl (h1 ▸ h2)
    · exact Or.inr ⟨h1.trans h2, h1x.trans h2x⟩

/-- `sorted(ocr_results, key=lambda x: (x[0][0][1], x[0][0][0]))`: Python's
sort is the stable sort by the key tuples, which insertion sort by the
non-strict key order computes. -/
def sortFragments (l : List RawFragment) : List RawFragment :=
  List.insertionSort keyOrder l

/-- `avg_y = (bbox[0][1] + bbox[2][1]) / 2`; `none` models the `IndexError`
on a polygon with fewer than 3 corner points. -/
def avgY (f : RawFragment) : Option ℚ :=
  match f.bbox[0]?, f.bbox[2]? with
  | some p0, some p2 => some ((p0.2 + p2.2) / 2)
  | _, _ => none

/-- Close the current line: texts joined by single spaces in accumulation
order, confidence the arithmetic mean. -/
def closeLine (cur : List (String × ℚ)) : String × ℚ :=
  (String.intercalate " " (cur.map Prod.fst),
   (cur.map Prod.snd).sum / (cur.length : ℚ))

/-- The grouping loop of `reconstruct_receipt_lines` (lines 129-153),
including the trailing-line flush: `curY` is `current_y` (`none` initially),
and within-tolerance fragments update it to the midpoint of the old value
and the new vertical center. -/
def groupLines (lines : List (String × ℚ)) (cur : List (String × ℚ))
    (curY : Option ℚ) (l : List RawFragment) : Option (List (String × ℚ)) :=
  match l with
  | [] => some (if cur = [] then lines else lines ++ [closeLine cur])
  | f :: fs =>
    match avgY f with
    | none => none
    | some ay =>
      match curY with
      | none => groupLines lines (cur ++ [(f.text, f.confidence)]) (some ay) fs
      | some y =>
        if |ay - y| ≤ 20 then
          groupLines lines (cur ++ [(f.text, f.confidence)]) (some ((y + ay) / 2)) fs
        else
          groupLines (if cur = [] then lines else lines ++ [closeLine cur])
            [(f.text, f.confidence)] (some ay) fs

/-- `reconstruct_receipt_lines` (`ocr_service.py` lines 119-155).  `none`
models the call raising: the sort key raises on an empty polygon and the
loop body on a polygon with fewer than 3 corner points; `y_tolerance = 20`. -/
def reconstruct_receipt_lines (ocr_results : List RawFragment) :
    Option (List (String × ℚ)) :=
  if ocr_results.all (fun f => !f.bbox.isEmpty) then
    groupLines [] [] none (sortFragments ocr_results)
  else none

/-! ## Deduplication (`upload_receipt`, `ocr_routes.py` lines 218-228). -/

/-- The dedup loop: `seen_items` holds the lowercased names already kept;
the first occurrence of each case-insensitive name survives. -/
def dedupAux (seen : List String) (l : List ExtractedItem) : List ExtractedItem :=
  match l with
  | [] => []
  | it :: rest =>
    if lowerStr it.item ∈ seen then dedupAux seen rest
    else it :: dedupAux (lowerStr it.item :: seen) rest

/-- `unique_items`: the reconstructed-line pass output followed by the
raw-fragment pass output, deduplicated by case-insensitive name. -/
def unique_items (items_from_lines items_from_fragments : List ExtractedItem) :
    List ExtractedItem :=
  dedupAux [] (items_from_lines ++ items_from_fragments)

/-! ## `difflib.SequenceMatcher.ratio` (used by `calculate_similarity`,
`ocr_service.py` line 308). -/

/-- Length of the common prefix of two strings. -/
def commonRunLen (a b : List Char) : Nat :=
  match a with
  | [] => 0
  | c :: cs =>
    match b with
    | [] => 0
    | d :: ds => if c = d then commonRunLen cs ds + 1 else 0

/-- `find_longest_match` over whole strings (the inputs here are short and
unrepetitive, so difflib's junk/popularity heuristic is inert): the longest
common substring, earliest in `a` then earliest in `b` among maximal ones,
as difflib documents.  Returns (i, j, k). -/
def findLongestMatch (a b : List Char) : Nat × Nat × Nat :=
  (List.range (a.length + 1)).foldl (fun best i =>
    (List.range (b.length + 1)).foldl (fun best2 j =>
      let k := commonRunLen (a.drop i) (b.drop j)
      if best2.2.2 < k then (i, j, k) else best2) best) (0, 0, 0)

/-- Total matched size of `get_matching_blocks`: take the longest match,
recurse left and right of it.  `fuel` only bounds the recursion depth;
`|a| + |b| + 1` always suffices because `|a| + |b|` strictly decreases at
each recursive call. -/
def matchSumF (fuel : Nat) (a b : List Char) : Nat :=
  match fuel with
  | 0 => 0
  | fu + 1 =>
    let m := findLongestMatch a b
    if m.2.2 = 0 then 0
    else
      matchSumF fu (a.take m.1) (b.take m.2.1) + m.2.2 +
        matchSumF fu (a.drop (m.1 + m.2.2)) (b.drop (m.2.1 + m.2.2))

/-- Total matched size with sufficient fuel. -/
def matchSum (a b : List Char) : Nat := matchSumF (a.length + b.length + 1) a b

/-- `SequenceMatcher(None, a, b).ratio()`: `2*M/T`, and 1 when `T = 0`. -/
def seqSimilarity (a b : List Char) : ℚ :=
  if a.length + b.length = 0 then 1
  else 2 * (matchSum a b : ℚ) / ((a.length + b.length : ℕ) : ℚ)

example : findLongestMatch "abc".data "bc".data = (1, 0, 2) := by decide
example : matchSum "milk".data "mlik".data = 3 := by decide
set_option maxRecDepth 4000 in
example : matchSum "toor dal".data "toordal".data = 7 := by decide
example : matchSum "aab".data "baa".data = 2 := by decide

/-! ## `fuzzy_match_inventory_item` and its helpers (`ocr_service.py`
lines 293-379). -/

/-- `' '.join(tokens)`. -/
def joinWithSpace : List (List Char) → List Char
  | [] => []
  | t :: ts =>
    match ts with
    | [] => t
    | _ :: _ => t ++ ' ' :: joinWithSpace ts

/-- `clean_text` (lines 295-300): lowercase, keep only alphanumerics and
whitespace, then normalize whitespace by split and join. -/
def clean_text (s : String) : String :=
  let kept := (s.data.map asciiLower).filter (fun c => c.isAlphanum || isPyWs c)
  ⟨joinWithSpace (pySplit kept)⟩

/-- Python `in` on strings: contiguous substring. -/
def isSubstringOf (s t : List Char) : Bool :=
  (List.range (t.length + 1)).any (fun i => s.isPrefixOf (t.drop i))

/-- `set(clean.split())`. -/
def tokenSet (s : String) : Finset String :=
  ((pySplit s.data).map (fun l => (⟨l⟩ : String))).toFinset

/-- `calculate_similarity` (lines 302-329): sequence ratio, substring bonus,
word-level Jaccard, combined with weights 0.6/0.4 when both token sets are
nonempty, capped at 1. -/
def calculate_similarity (str1 str2 : String) : ℚ :=
  let clean_str1 := clean_text str1
  let clean_str2 := clean_text str2
  let seq_similarity := seqSimilarity clean_str1.data clean_str2.data
  let substring_bonus : ℚ :=
    if isSubstringOf clean_str1.data clean_str2.data ||
        isSubstringOf clean_str2.data clean_str1.data then 1/5
    else 0
  let words1 := tokenSet clean_str1
  let words2 := tokenSet clean_str2
  let combined :=
    if words1 ≠ ∅ ∧ words2 ≠ ∅ then
      let word_intersection := (words1 ∩ words2).card
      let word_union := (words1 ∪ words2).card
      let word_similarity : ℚ :=
        if 0 < word_union then (word_intersection : ℚ) / (word_union : ℚ) else 0
      seq_similarity * (3/5) + word_similarity * (2/5) + substring_bonus
    else seq_similarity + substring_bonus
  min combined 1

/-- The match record built at `ocr_service.py` lines 364-371. -/
structure MatchResult where
  inventory_item : InventoryItem
  similarity_score : ℚ
  matched_field : String
  extracted_name : String
  matched_name : String
deriving DecidableEq

/-- The loop body of `fuzzy_match_inventory_item` (lines 343-372): score the
three comparison fields, keep the entry on strict improvement over
`best_score` when the score clears the threshold. -/
def scoreStep (extracted_name : String) (threshold : ℚ)
    (st : Option MatchResult × ℚ) (item : InventoryItem) :
    Option MatchResult × ℚ :=
  let item_name := item.itemName
  let name_similarity := calculate_similarity extracted_name item_name
  let brand_similarity :=
    if item.brand ≠ "" ∧ item.brand ≠ "NA" then
      calculate_similarity extracted_name (pyStripStr (item.brand ++ " " ++ item_name))
    else 0
  let category_similarity :=
    if item.category ≠ "" then
      calculate_similarity extracted_name (pyStripStr (item.category ++ " " ++ item_name))
    else 0
  let max_similarity := max name_similarity (max brand_similarity category_similarity)
  if st.2 < max_similarity ∧ threshold ≤ max_similarity then
    (some { inventory_item := item, similarity_score := max_similarity,
            matched_field :=
              if name_similarity = max_similarity then "name"
              else if brand_similarity = max_similarity then "brand_name"
              else "category_name",
            extracted_name := extracted_name, matched_name := item_name },
      max_similarity)
  else st

/-- `fuzzy_match_inventory_item` (lines 293-379); the source's default
`threshold` is 0.6. -/
def fuzzy_match_inventory_item (extracted_name : String)
    (inventory_items : List InventoryItem) (threshold : ℚ) :
    Option MatchResult :=
  if inventory_items.isEmpty || extracted_name.isEmpty then none
  else if (clean_text extracted_name).isEmpty then none
  else (inventory_items.foldl (scoreStep extracted_name threshold) (none, 0)).1

/-! ## Shared evaluation lemmas for concrete runs. -/

/-- A one-letter catalog: "zzzz" is at distance 4 from "a", similarity 0. -/
theorem extract_eval_zzzz :
    extract_items_from_text (fun _ => "pc") [sampleItemA] [("zzzz", 9/10)] =
      [{ item := "a", quantity := none, unit := some "pc", confidence := 9/10,
         fuzzy_match := some
           { similarity_score := 0, original_extracted := "zzzz",
             matched_field := "itemName", inventory_id := "id0",
             item_id := "it0", selling_price := none, mrp := none } }] := by
  have hmap : "zzzz".data.map asciiLower = "zzzz".data := by decide
  have hpat : tryPatterns patList (pyStrip (squeezeWs (kExpand (stripDisallowed
      (noiseReplace (stripColons (stripAngles (pyStrip "zzzz".data)))))))) =
      some ("zzzz".data, []) := by decide
  have hlen : (pyStrip "zzzz".data).length = 4 := by decide
  have hlev : levenshtein_distance (lowerStr ⟨"zzzz".data⟩).data
      (lowerStr "a").data = 4 := by decide
  simp only [extract_items_from_text, List.filterMap, processLine, buildItem,
    sampleItemA, hmap, hlen, hpat, List.map_nil, List.foldl_nil, hlev]
  have hl1 : ("a" : String).length = 1 := by decide
  have hlow : lowerStr "" = "" := by decide
  norm_num [pyRound2, pyRound3, roundHalfEven, hl1, hlow]

/-- The sample milk catalog entry. -/
def sampleMilk : InventoryItem :=
  { itemName := "milk", brand := "", category := "", unitSize := "",
    mongoId := "id1", itemId := "it1", sellingPrice := none, mrp := none }

/-- `calculate_similarity` of a string with itself is capped at 1. -/
theorem calc_sim_milk : calculate_similarity "milk" "milk" = 1 := by
  have hclean : clean_text "milk" = "milk" := by decide
  have hms : matchSum "milk".data "milk".data = 4 := by decide
  have hsub : isSubstringOf "milk".data "milk".data = true := by decide
  have htokne : ¬(tokenSet "milk" = ∅) := by decide
  have hinter : ((tokenSet "milk" ∩ tokenSet "milk").card : ℚ) = 1 := by decide
  have hunion : ((tokenSet "milk" ∪ tokenSet "milk").card : ℚ) = 1 := by decide
  have hcard : 0 < (tokenSet "milk" ∪ tokenSet "milk").card := by decide
  simp only [calculate_similarity, hclean, seqSimilarity, hms, hsub, htokne,
    not_false_eq_true, and_self, if_true, hcard, if_pos, hinter, hunion]
  norm_num

/-- Evaluation of the hybrid matcher on a perfect match. -/
theorem fuzzy_eval_milk :
    fuzzy_match_inventory_item "milk" [sampleMilk] (3/5) =
      some { inventory_item := sampleMilk, similarity_score := 1,
             matched_field := "name", extracted_name := "milk",
             matched_name := "milk" } := by
  have h0 : fuzzy_match_inventory_item "milk" [sampleMilk] (3/5) =
      (scoreStep "milk" (3/5) (none, 0) sampleMilk).1 := rfl
  rw [h0]
  simp only [scoreStep, sampleMilk, calc_sim_milk]
  norm_num

/-! ## C9: empty-catalog safety. -/

/-- C9: matching any candidate name against an empty catalog returns the
explicit no-match value (`None`); the matcher is a total function here, so
in particular nothing is raised. -/
theorem fuzzy_match_empty_catalog (name : String) (t : ℚ) :
    fuzzy_match_inventory_item name [] t = none := rfl

/-! ## C10: extracted quantities are always deferred (`None`). -/

/-- C10: every item built by `extract_items_from_text` has `quantity = None`,
in the inventory-matched branch and the unmatched branch alike. -/
theorem extract_items_quantity_none (fb : String → String)
    (inv : List InventoryItem) (texts : List (String × ℚ))
    (it : ExtractedItem) (hmem : it ∈ extract_items_from_text fb inv texts) :
    it.quantity = none := by
  simp only [extract_items_from_text, List.mem_filterMap] at hmem
  obtain ⟨tc, _, hp⟩ := hmem
  simp only [processLine] at hp
  split at hp
  · exact absurd hp (by simp)
  · split at hp
    · exact absurd hp (by simp)
    · split at hp
      · exact absurd hp (by simp)
      · simp only [Option.some.injEq] at hp
        subst hp
        cases inv with
        | nil => rfl
        | cons a as => rfl

/-- C10 witness: the concrete matched run. -/
theorem extract_items_quantity_none_witness :
    ({ item := "a", quantity := none, unit := some "pc", confidence := 9/10,
       fuzzy_match := some
         { similarity_score := 0, original_extracted := "zzzz",
           matched_field := "itemName", inventory_id := "id0",
           item_id := "it0", selling_price := none, mrp := none } } :
      ExtractedItem).quantity = none :=
  extract_items_quantity_none (fun _ => "pc") [sampleItemA] [("zzzz", 9/10)] _
    (by rw [extract_eval_zzzz]; exact List.mem_singleton.mpr rfl)

/-! ## C1: acceptance thresholds. -/

/-- C1 counterexample: the edit-distance extractor returns an inventory
match whose similarity score is 0, far below the claimed 0.5 acceptance
threshold, instead of reporting the line unmatched. -/
theorem extract_match_below_threshold :
    (extract_items_from_text (fun _ => "pc") [sampleItemA] [("zzzz", 9/10)]).map
        (fun it => it.fuzzy_match.map FuzzyInfo.similarity_score) = [some 0] ∧
      (0 : ℚ) < 1/2 := by
  rw [extract_eval_zzzz]
  refine ⟨rfl, by norm_num⟩

/-- One step of the matcher loop preserves the threshold invariant: a match
is stored only together with a score clearing the threshold. -/
theorem scoreStep_keeps_ge (name : String) (t : ℚ)
    (st : Option MatchResult × ℚ) (x : InventoryItem)
    (h : ∀ rr : MatchResult, st.1 = some rr → t ≤ rr.similarity_score) :
    ∀ rr : MatchResult,
      (scoreStep name t st x).1 = some rr → t ≤ rr.similarity_score := by
  intro rr hrr
  simp only [scoreStep] at hrr
  rw [apply_ite Prod.fst, ite_eq_iff] at hrr
  rcases hrr with ⟨hcond, h1⟩ | ⟨_, h2⟩
  · have hr2 := Option.some.inj h1
    subst hr2
    exact hcond.2
  · exact h rr h2

/-- Fold invariant: any match held in the accumulator scores at least the
threshold. -/
theorem scoreStep_foldl_ge (name : String) (t : ℚ) (inv : List InventoryItem) :
    ∀ st : Option MatchResult × ℚ,
      (∀ rr : MatchResult, st.1 = some rr → t ≤ rr.similarity_score) →
      ∀ rr : MatchResult,
        (inv.foldl (scoreStep name t) st).1 = some rr →
          t ≤ rr.similarity_score := by
  induction inv with
  | nil => intro st h rr hr; exact h rr hr
  | cons x xs ih =>
    intro st h rr hr
    rw [List.foldl_cons] at hr
    exact ih (scoreStep name t st x) (scoreStep_keeps_ge name t st x h) rr hr

/-- C1 amended, hybrid-similarity side: `fuzzy_match_inventory_item` returns
a result only when its `similarity_score` is at or above the threshold
(0.6 at the source's default call sites); the edit-distance extractor, by
contrast, applies no threshold at all (see the counterexample). -/
theorem fuzzy_match_score_ge_threshold (name : String)
    (inv : List InventoryItem) (t : ℚ) (r : MatchResult)
    (h : fuzzy_match_inventory_item name inv t = some r) :
    t ≤ r.similarity_score := by
  simp only [fuzzy_match_inventory_item] at h
  split at h
  · exact absurd h (by simp)
  · split at h
    · exact absurd h (by simp)
    · exact scoreStep_foldl_ge name t inv (none, 0) (by intro rr hrr; cases hrr) r h

/-- C1 amended witness: at the concrete perfect match, 0.6 ≤ 1. -/
theorem fuzzy_match_score_ge_threshold_witness : (3/5 : ℚ) ≤ 1 :=
  fuzzy_match_score_ge_threshold "milk" [sampleMilk] (3/5)
    { inventory_item := sampleMilk, similarity_score := 1,
      matched_field := "name", extracted_name := "milk", matched_name := "milk" }
    fuzzy_eval_milk

/-! ## C8: deduplication keeps the first occurrence per name. -/

theorem dedupAux_sublist (l : List ExtractedItem) :
    ∀ seen, (dedupAux seen l).Sublist l := by
  induction l with
  | nil => intro seen; simp [dedupAux]
  | cons x xs ih =>
    intro seen
    simp only [dedupAux]
    split
    · exact (ih seen).cons x
    · exact (ih (lowerStr x.item :: seen)).cons₂ x

theorem dedupAux_not_seen (l : List ExtractedItem) :
    ∀ seen, ∀ it ∈ dedupAux seen l, lowerStr it.item ∉ seen := by
  induction l with
  | nil => intro seen it hit; simp [dedupAux] at hit
  | cons x xs ih =>
    intro seen it hit
    simp only [dedupAux] at hit
    split at hit
    · exact ih seen it hit
    · rename_i hx
      rcases List.mem_cons.mp hit with h | h
      · subst h; exact hx
      · intro hmem
        exact ih (lowerStr x.item :: seen) it h (List.mem_cons_of_mem _ hmem)

theorem dedupAux_nodup_keys (l : List ExtractedItem) :
    ∀ seen, ((dedupAux seen l).map (fun it => lowerStr it.item)).Nodup := by
  induction l with
  | nil => intro seen; simp [dedupAux]
  | cons x xs ih =>
    intro seen
    simp only [dedupAux]
    split
    · exact ih seen
    · simp only [List.map_cons, List.nodup_cons]
      refine ⟨?_, ih (lowerStr x.item :: seen)⟩
      intro hmem
      rw [List.mem_map] at hmem
      obtain ⟨jt, hjt, hkey⟩ := hmem
      exact dedupAux_not_seen xs (lowerStr x.item :: seen) jt hjt
        (hkey ▸ List.mem_cons_self _ _)

theorem dedupAux_first (l : List ExtractedItem) :
    ∀ seen, ∀ it ∈ dedupAux seen l,
      l.find? (fun x => lowerStr x.item == lowerStr it.item) = some it := by
  induction l with
  | nil => intro seen it hit; simp [dedupAux] at hit
  | cons x xs ih =>
    intro seen it hit
    simp only [dedupAux] at hit
    split at hit
    · rename_i hx
      have hne : (lowerStr x.item == lowerStr it.item) = false :=
        beq_eq_false_iff_ne.mpr
          (fun he => dedupAux_not_seen xs seen it hit (he ▸ hx))
      simp only [List.find?_cons, hne]
      exact ih seen it hit
    · rename_i hx
      rcases List.mem_cons.mp hit with h | h
      · subst h
        exact List.find?_cons_of_pos _ (by simp)
      · have hne : (lowerStr x.item == lowerStr it.item) = false :=
          beq_eq_false_iff_ne.mpr
            (fun he => dedupAux_not_seen xs (lowerStr x.item :: seen) it h
              (he ▸ List.mem_cons_self _ _))
        simp only [List.find?_cons, hne]
        exact ih (lowerStr x.item :: seen) it h

theorem dedupAux_represented (l : List ExtractedItem) :
    ∀ seen, ∀ it ∈ l, lowerStr it.item ∈ seen ∨
      ∃ jt ∈ dedupAux seen l, lowerStr jt.item = lowerStr it.item := by
  induction l with
  | nil => intro seen it hit; simp at hit
  | cons x xs ih =>
    intro seen it hit
    simp only [dedupAux]
    rcases List.mem_cons.mp hit with h | h
    · subst h
      split
      · rename_i hx; exact Or.inl hx
      · exact Or.inr ⟨it, List.mem_cons_self _ _, rfl⟩
    · split
      · exact ih seen it h
      · rcases ih (lowerStr x.item :: seen) it h with hseen | ⟨jt, hjt, hkey⟩
        · rcases List.mem_cons.mp hseen with he | hs
          · exact Or.inr ⟨x, List.mem_cons_self _ _, he.symm⟩
          · exact Or.inl hs
        · exact Or.inr ⟨jt, List.mem_cons_of_mem _ hjt, hkey⟩

/-- C8: the pipeline's final list (reconstructed-line items then raw-fragment
items, deduplicated) has pairwise distinct case-insensitive names, is a
subsequence of the concatenated passes, each kept item is the first
occurrence of its name in processing order, and every processed name is
represented. -/
theorem unique_items_spec (l1 l2 : List ExtractedItem) :
    ((unique_items l1 l2).map (fun it => lowerStr it.item)).Nodup ∧
      (unique_items l1 l2).Sublist (l1 ++ l2) ∧
      (∀ it ∈ unique_items l1 l2,
        (l1 ++ l2).find? (fun x => lowerStr x.item == lowerStr it.item) = some it) ∧
      ∀ it ∈ l1 ++ l2, ∃ jt ∈ unique_items l1 l2,
        lowerStr jt.item = lowerStr it.item := by
  refine ⟨dedupAux_nodup_keys (l1 ++ l2) [], dedupAux_sublist (l1 ++ l2) [],
    dedupAux_first (l1 ++ l2) [], ?_⟩
  intro it hit
  rcases dedupAux_represented (l1 ++ l2) [] it hit with h | h
  · simp at h
  · exact h

/-- Two items sharing the name up to case, for the C8 witness. -/
def itemMilkA : ExtractedItem :=
  { item := "Milk", quantity := none, unit := some "ltr", confidence := 1,
    fuzzy_match := none }

/-- The later duplicate. -/
def itemMilkB : ExtractedItem :=
  { item := "milk", quantity := none, unit := some "ml", confidence := 1,
    fuzzy_match := none }

/-- C8 witness: on a concrete duplicate pair, the kept item is the first
occurrence. -/
theorem unique_items_spec_witness :
    ([itemMilkA] ++ [itemMilkB]).find?
      (fun x => lowerStr x.item == lowerStr itemMilkA.item) = some itemMilkA :=
  (unique_items_spec [itemMilkA] [itemMilkB]).2.2.1 itemMilkA (by decide)

/-! ## Concrete fragments and evaluation lemmas for the reconstruction
claims. -/

/-- A tall box: top-left y = 10, vertical center 30. -/
def fragA : RawFragment :=
  { bbox := [(0, 10), (50, 10), (50, 50), (0, 50)], text := "A",
    confidence := 9/10 }

/-- A short box below it: top-left y = 20, vertical center 22. -/
def fragB : RawFragment :=
  { bbox := [(0, 20), (50, 20), (50, 24), (0, 24)], text := "B",
    confidence := 4/5 }

/-- Far right, slightly higher: origin x = 500, top y = 100, center 110. -/
def fragW : RawFragment :=
  { bbox := [(500, 100), (560, 100), (560, 120), (500, 120)], text := "world",
    confidence := 9/10 }

/-- Far left, slightly lower: origin x = 10, top y = 102, center 112. -/
def fragH : RawFragment :=
  { bbox := [(10, 102), (80, 102), (80, 122), (10, 122)], text := "hello",
    confidence := 7/10 }

/-- A degenerate flat box whose vertical center is exactly `y`. -/
def flatFrag (y : ℚ) (t : String) : RawFragment :=
  { bbox := [(0, y), (10, y), (10, y), (0, y)], text := t, confidence := 1 }

/-- The total vertical center (defined whenever the polygon has 3 points). -/
def centerOf (f : RawFragment) : ℚ :=
  ((f.bbox[0]?.getD (0, 0)).2 + (f.bbox[2]?.getD (0, 0)).2) / 2

theorem avgY_eq_centerOf {f : RawFragment} (h : 3 ≤ f.bbox.length) :
    avgY f = some (centerOf f) := by
  obtain ⟨p0, hp0⟩ : ∃ p, f.bbox[0]? = some p :=
    ⟨_, List.getElem?_eq_getElem (by omega)⟩
  obtain ⟨p2, hp2⟩ : ∃ p, f.bbox[2]? = some p :=
    ⟨_, List.getElem?_eq_getElem (by omega)⟩
  simp [avgY, centerOf, hp0, hp2]

theorem avgY_none_iff (f : RawFragment) : avgY f = none ↔ f.bbox.length < 3 := by
  constructor
  · intro h
    by_contra hlen
    push_neg at hlen
    rw [avgY_eq_centerOf hlen] at h
    cases h
  · intro h
    have h2 : f.bbox[2]? = none := List.getElem?_eq_none (by omega)
    unfold avgY
    rw [h2]
    cases f.bbox[0]? <;> rfl

/-! ## C2: the sort key. -/

/-- C2 counterexample: the sorting step keeps `fragA` (center 30, top 10)
before `fragB` (center 22, top 20), so the output is not ordered by
vertical center ascending; the primary key is the first corner's y. -/
theorem sort_not_by_vertical_center :
    sortFragments [fragA, fragB] = [fragA, fragB] ∧
      avgY fragA = some 30 ∧ avgY fragB = some 22 ∧ (22 : ℚ) < 30 := by
  have hk : keyOrder fragA fragB :=
    Or.inl (by norm_num [fragKeyY, fragA, fragB])
  refine ⟨?_, ?_, ?_, by norm_num⟩
  · exact List.Sorted.insertionSort_eq (List.sorted_cons.mpr
      ⟨fun g hg => by rw [List.mem_singleton.mp hg]; exact hk,
       List.sorted_singleton _⟩)
  · simp [avgY, fragA] <;> norm_num
  · simp [avgY, fragB] <;> norm_num

/-- C2 amended: the sorting step orders the fragments by the non-strict
lexicographic order on (top-left y, top-left x) — a permutation of the
input sorted by that key, with the vertical center playing no role in the
ordering. -/
theorem sortFragments_sorted_perm (l : List RawFragment) :
    (sortFragments l).Sorted keyOrder ∧ (sortFragments l).Perm l :=
  ⟨List.sorted_insertionSort keyOrder l, List.perm_insertionSort keyOrder l⟩

/-! ## C6: malformed polygons. -/

/-- A 3-point polygon. -/
def triFrag : RawFragment :=
  { bbox := [(0, 0), (10, 0), (10, 10)], text := "abc", confidence := 1/2 }

/-- A 1-point polygon. -/
def dotFrag : RawFragment :=
  { bbox := [(0, 0)], text := "dot", confidence := 1/2 }

/-- C6 counterexample: a fragment whose polygon has only 3 of the expected
4 corner points is processed without any error. -/
theorem reconstruct_three_point_ok :
    reconstruct_receipt_lines [triFrag] = some [("abc", 1/2)] ∧
      triFrag.bbox.length < 4 := by
  refine ⟨?_, by decide⟩
  have hg : ([triFrag].all (fun f => !f.bbox.isEmpty)) = true := by decide
  have hay : avgY triFrag = some 5 := by
    simp [avgY, triFrag] <;> norm_num
  have hclose : closeLine [(triFrag.text, triFrag.confidence)] = ("abc", 1/2) := by
    simp only [closeLine, List.map, Prod.mk.injEq, triFrag]
    exact ⟨by decide, by norm_num⟩
  simp only [reconstruct_receipt_lines, hg, if_true, sortFragments,
    List.insertionSort, List.orderedInsert, groupLines, hay]
  simp [hclose]

theorem groupLines_none_iff (l : List RawFragment) : ∀ lines cur curY,
    groupLines lines cur curY l = none ↔ ∃ f ∈ l, avgY f = none := by
  induction l with
  | nil =>
    intro lines cur curY
    simp [groupLines]
  | cons f fs ih =>
    intro lines cur curY
    cases hay : avgY f with
    | none =>
      simp only [groupLines, hay]
      exact iff_of_true (by trivial) ⟨f, by simp, hay⟩
    | some ay =>
      have hmem : (∃ g ∈ fs, avgY g = none) ↔ ∃ g ∈ f :: fs, avgY g = none := by
        constructor
        · rintro ⟨g, hg, hgn⟩
          exact ⟨g, List.mem_cons_of_mem _ hg, hgn⟩
        · rintro ⟨g, hg, hgn⟩
          rcases List.mem_cons.mp hg with rfl | hg
          · rw [hay] at hgn; cases hgn
          · exact ⟨g, hg, hgn⟩
      cases curY with
      | none =>
        simp only [groupLines, hay]
        rw [ih, hmem]
      | some y =>
        simp only [groupLines, hay]
        split
        · rw [ih, hmem]
        · rw [ih, hmem]

/-- C6 amended: the reconstruction call fails (raises) exactly when some
fragment's polygon has fewer than 3 corner points; a 3-point polygon is
accepted silently (see the counterexample). -/
theorem reconstruct_none_iff (l : List RawFragment) :
    reconstruct_receipt_lines l = none ↔ ∃ f ∈ l, f.bbox.length < 3 := by
  unfold reconstruct_receipt_lines
  split
  · rename_i hall
    rw [groupLines_none_iff]
    constructor
    · rintro ⟨f, hf, hfn⟩
      exact ⟨f, (List.perm_insertionSort keyOrder l).mem_iff.mp hf,
        (avgY_none_iff f).mp hfn⟩
    · rintro ⟨f, hf, hlen⟩
      exact ⟨f, (List.perm_insertionSort keyOrder l).mem_iff.mpr hf,
        (avgY_none_iff f).mpr hlen⟩
  · rename_i hall
    rw [List.all_eq_true] at hall
    push_neg at hall
    obtain ⟨f, hf, hb⟩ := hall
    have hlen : f.bbox.length < 3 := by
      rcases hbe : f.bbox with _ | ⟨p, ps⟩
      · simp
      · rw [hbe] at hb
        simp at hb
    exact iff_of_true rfl ⟨f, hf, hlen⟩

/-- C6 amended witness: a 1-point polygon makes the whole call fail. -/
theorem reconstruct_none_iff_witness :
    reconstruct_receipt_lines [dotFrag] = none :=
  (reconstruct_none_iff [dotFrag]).mpr ⟨dotFrag, by simp, by decide⟩

/-! ## C4: the grouping anchor. -/

/-- C4 counterexample: three fragments with centers 0, 20, 40 — each within
`Y_TOLERANCE = 20` of its immediate predecessor — are split into two lines,
because the loop compares to the running midpoint (10 after the second
fragment), not to the predecessor. -/
theorem reconstruct_chain_splits :
    reconstruct_receipt_lines
        [flatFrag 0 "a", flatFrag 20 "b", flatFrag 40 "c"] =
      some [("a b", 1), ("c", 1)] ∧
      |(20 : ℚ) - 0| ≤ 20 ∧ |(40 : ℚ) - 20| ≤ 20 ∧
      avgY (flatFrag 0 "a") = some 0 ∧ avgY (flatFrag 20 "b") = some 20 ∧
      avgY (flatFrag 40 "c") = some 40 := by
  have hay0 : avgY (flatFrag 0 "a") = some 0 := by
    simp [avgY, flatFrag] <;> norm_num
  have hay1 : avgY (flatFrag 20 "b") = some 20 := by
    simp [avgY, flatFrag] <;> norm_num
  have hay2 : avgY (flatFrag 40 "c") = some 40 := by
    simp [avgY, flatFrag] <;> norm_num
  refine ⟨?_, by norm_num, by norm_num, hay0, hay1, hay2⟩
  have hg : (([flatFrag 0 "a", flatFrag 20 "b", flatFrag 40 "c"]).all
      (fun f => !f.bbox.isEmpty)) = true := by decide
  have hsorted : List.Sorted keyOrder
      [flatFrag 0 "a", flatFrag 20 "b", flatFrag 40 "c"] := by
    refine List.sorted_cons.mpr ⟨?_, List.sorted_cons.mpr
      ⟨?_, List.sorted_singleton _⟩⟩ <;> intro g hg <;> fin_cases hg <;>
      exact Or.inl (by norm_num [fragKeyY, flatFrag])
  have ht1 : |(20 : ℚ) - 0| ≤ 20 := by norm_num
  have ht2 : ¬(|(40 : ℚ) - (0 + 20) / 2| ≤ 20) := by norm_num
  have hcl1 : closeLine [((flatFrag 0 "a").text, (flatFrag 0 "a").confidence),
      ((flatFrag 20 "b").text, (flatFrag 20 "b").confidence)] = ("a b", 1) := by
    simp only [closeLine, List.map, Prod.mk.injEq, flatFrag]
    exact ⟨by decide, by norm_num⟩
  have hcl2 : closeLine [((flatFrag 40 "c").text,
      (flatFrag 40 "c").confidence)] = ("c", 1) := by
    simp only [closeLine, List.map, Prod.mk.injEq, flatFrag]
    exact ⟨by decide, by norm_num⟩
  simp only [reconstruct_receipt_lines, hg, if_true, sortFragments,
    List.Sorted.insertionSort_eq hsorted]
  simp only [groupLines, hay0, hay1, hay2]
  rw [if_pos ht1, if_neg ht2]
  simp [hcl1, hcl2]

/-- The chain condition the grouping loop actually enforces: each next
vertical center within tolerance of the current running value, which is
updated to the two-point midpoint at each step. -/
def midChainOk (curY : Option ℚ) (cs : List ℚ) : Prop :=
  match cs with
  | [] => True
  | a :: as =>
    match curY with
    | none => midChainOk (some a) as
    | some y => |a - y| ≤ 20 ∧ midChainOk (some ((y + a) / 2)) as

theorem groupLines_chain (fs : List RawFragment) : ∀ (y : ℚ) cur lines,
    cur ≠ [] →
    (∀ f ∈ fs, 3 ≤ f.bbox.length) →
    midChainOk (some y) (fs.map centerOf) →
    groupLines lines cur (some y) fs =
      some (lines ++
        [closeLine (cur ++ fs.map (fun f => (f.text, f.confidence)))]) := by
  induction fs with
  | nil =>
    intro y cur lines hc _ _
    simp [groupLines, hc]
  | cons f fs ih =>
    intro y cur lines hc h3 hchain
    have hay : avgY f = some (centerOf f) := avgY_eq_centerOf (h3 f (by simp))
    simp only [groupLines, hay, List.map_cons]
    rw [if_pos hchain.1]
    rw [ih ((y + centerOf f) / 2) (cur ++ [(f.text, f.confidence)]) lines
      (by simp) (fun g hg => h3 g (by simp [hg])) hchain.2]
    simp

/-- C4 amended: the grouping anchor is the running midpoint, not the
predecessor: a sorted sequence of fragments each within `Y_TOLERANCE` of the
loop's running midpoint value is reconstructed as one single line — even
when, as in the witness, the first and last vertical centers differ by more
than `Y_TOLERANCE`.  (A sequence merely within tolerance of its predecessor
can split; see the counterexample.) -/
theorem reconstruct_midpoint_chain (l : List RawFragment)
    (h3 : ∀ f ∈ l, 3 ≤ f.bbox.length) (hs : List.Sorted keyOrder l)
    (hne : l ≠ []) (hchain : midChainOk none (l.map centerOf)) :
    reconstruct_receipt_lines l =
      some [closeLine (l.map (fun f => (f.text, f.confidence)))] := by
  unfold reconstruct_receipt_lines
  have hall : (l.all (fun f => !f.bbox.isEmpty)) = true := by
    rw [List.all_eq_true]
    intro f hf
    have h := h3 f hf
    rcases hbe : f.bbox with _ | ⟨p, ps⟩
    · rw [hbe] at h; simp at h
    · simp
  rw [if_pos hall]
  unfold sortFragments
  rw [List.Sorted.insertionSort_eq hs]
  cases l with
  | nil => exact absurd rfl hne
  | cons f fs =>
    have hay : avgY f = some (centerOf f) := avgY_eq_centerOf (h3 f (by simp))
    simp only [groupLines, hay, List.nil_append]
    rw [groupLines_chain fs (centerOf f) [(f.text, f.confidence)] []
      (by simp) (fun g hg => h3 g (by simp [hg])) hchain]
    simp

/-- The drifting staircase: centers 0, 15, 25, 35. -/
def driftList : List RawFragment :=
  [flatFrag 0 "p", flatFrag 15 "q", flatFrag 25 "r", flatFrag 35 "s"]

/-- C4 amended witness: the staircase stays within tolerance of the running
midpoint at every step, so it reconstructs as one line, although the first
and last centers differ by 35 > 20. -/
theorem reconstruct_midpoint_chain_witness :
    reconstruct_receipt_lines driftList =
      some [closeLine (driftList.map (fun f => (f.text, f.confidence)))] ∧
      (20 : ℚ) < |centerOf (flatFrag 35 "s") - centerOf (flatFrag 0 "p")| := by
  constructor
  · apply reconstruct_midpoint_chain
    · decide
    · refine List.sorted_cons.mpr ⟨?_, List.sorted_cons.mpr ⟨?_,
        List.sorted_cons.mpr ⟨?_, List.sorted_singleton _⟩⟩⟩ <;>
        intro g hg <;> fin_cases hg <;>
        exact Or.inl (by norm_num [fragKeyY, flatFrag, driftList])
    · decide
    · norm_num [driftList, midChainOk, centerOf, flatFrag, abs_le]
  · norm_num [centerOf, flatFrag, abs_le]

/-! ## C3: word order within a line. -/

/-- Evaluation: `fragW` (right, top y 100) and `fragH` (left, top y 102)
group into one line in sorted order, i.e. "world hello". -/
theorem reconstruct_eval_world_hello :
    reconstruct_receipt_lines [fragW, fragH] =
      some [("world hello", 4/5)] := by
  have hg : (([fragW, fragH]).all (fun f => !f.bbox.isEmpty)) = true := by decide
  have hayW : avgY fragW = some 110 := by simp [avgY, fragW] <;> norm_num
  have hayH : avgY fragH = some 112 := by simp [avgY, fragH] <;> norm_num
  have hk : keyOrder fragW fragH :=
    Or.inl (by norm_num [fragKeyY, fragW, fragH])
  have hsorted : List.Sorted keyOrder [fragW, fragH] :=
    List.sorted_cons.mpr ⟨fun g hg => by rw [List.mem_singleton.mp hg]; exact hk,
      List.sorted_singleton _⟩
  have ht : |(112 : ℚ) - 110| ≤ 20 := by norm_num
  have hclose : closeLine [(fragW.text, fragW.confidence),
      (fragH.text, fragH.confidence)] = ("world hello", 4/5) := by
    simp only [closeLine, List.map, Prod.mk.injEq, fragW, fragH]
    exact ⟨by decide, by norm_num⟩
  simp only [reconstruct_receipt_lines, hg, if_true, sortFragments,
    List.Sorted.insertionSort_eq hsorted]
  simp only [groupLines, hayW, hayH]
  rw [if_pos ht]
  simp [hclose]

/-- C3 counterexample: on one reconstructed line, the word order is the
sorted-by-top-left-y order "world hello", not the left-to-right order by
horizontal origin (hello at x = 10 is left of world at x = 500). -/
theorem reconstruct_word_order_violation :
    reconstruct_receipt_lines [fragW, fragH] = some [("world hello", 4/5)] ∧
      fragKeyX fragH < fragKeyX fragW := by
  refine ⟨reconstruct_eval_world_hello, ?_⟩
  norm_num [fragKeyX, fragW, fragH]

theorem groupLines_chunks (fs : List RawFragment) : ∀ lines cur curY out,
    groupLines lines cur curY fs = some out →
    ∃ chunks : List (List (String × ℚ)),
      out = lines ++ chunks.map closeLine ∧
      chunks.flatten = cur ++ fs.map (fun f => (f.text, f.confidence)) ∧
      ∀ c ∈ chunks, c ≠ [] := by
  induction fs with
  | nil =>
    intro lines cur curY out h
    simp only [groupLines] at h
    have h2 := Option.some.inj h
    by_cases hc : cur = []
    · refine ⟨[], ?_, by simp [hc], by simp⟩
      rw [if_pos hc] at h2
      simp [← h2]
    · refine ⟨[cur], ?_, by simp, by simp [hc]⟩
      rw [if_neg hc] at h2
      simp [← h2]
  | cons f fs ih =>
    intro lines cur curY out h
    simp only [groupLines] at h
    cases hay : avgY f with
    | none =>
      simp [hay] at h
    | some ay =>
      cases curY with
      | none =>
        simp only [hay] at h
        obtain ⟨chunks, h1, h2, h3⟩ :=
          ih lines (cur ++ [(f.text, f.confidence)]) (some ay) out h
        exact ⟨chunks, h1, by simpa using h2, h3⟩
      | some y =>
        simp only [hay] at h
        by_cases htol : |ay - y| ≤ 20
        · rw [if_pos htol] at h
          obtain ⟨chunks, h1, h2, h3⟩ :=
            ih lines (cur ++ [(f.text, f.confidence)]) (some ((y + ay) / 2)) out h
          exact ⟨chunks, h1, by simpa using h2, h3⟩
        · rw [if_neg htol] at h
          by_cases hc : cur = []
          · rw [if_pos hc] at h
            obtain ⟨chunks, h1, h2, h3⟩ :=
              ih lines [(f.text, f.confidence)] (some ay) out h
            exact ⟨chunks, h1, by simp [hc, h2], h3⟩
          · rw [if_neg hc] at h
            obtain ⟨chunks, h1, h2, h3⟩ :=
              ih (lines ++ [closeLine cur]) [(f.text, f.confidence)] (some ay) out h
            refine ⟨cur :: chunks, ?_, ?_, ?_⟩
            · rw [h1]; simp
            · simp [h2]
            · intro c hcm
              rcases List.mem_cons.mp hcm with rfl | hcm
              · exact hc
              · exact h3 c hcm

/-- C3 amended: each reconstructed line's word order is the fragments'
relative order in the (top-left y, then top-left x)-sorted sequence — the
output lines arise from a partition of the sorted fragment sequence into
consecutive nonempty chunks, each space-joined in that order.  This
coincides with left-to-right order only when the fragments of a line share
the same top-left y (see the counterexample). -/
theorem reconstruct_words_in_sorted_order (l : List RawFragment)
    (out : List (String × ℚ)) (h : reconstruct_receipt_lines l = some out) :
    ∃ chunks : List (List (String × ℚ)),
      chunks.flatten = (sortFragments l).map (fun f => (f.text, f.confidence)) ∧
      (∀ c ∈ chunks, c ≠ []) ∧ out = chunks.map closeLine := by
  unfold reconstruct_receipt_lines at h
  split at h
  · obtain ⟨chunks, h1, h2, h3⟩ := groupLines_chunks (sortFragments l) [] [] none out h
    exact ⟨chunks, by simpa using h2, h3, by simpa using h1⟩
  · cases h

/-- C3 amended witness: the concrete two-fragment line. -/
theorem reconstruct_words_in_sorted_order_witness :
    ∃ chunks : List (List (String × ℚ)),
      chunks.flatten =
        (sortFragments [fragW, fragH]).map (fun f => (f.text, f.confidence)) ∧
      (∀ c ∈ chunks, c ≠ []) ∧
      [("world hello", 4/5)] = chunks.map closeLine :=
  reconstruct_words_in_sorted_order [fragW, fragH] [("world hello", 4/5)]
    reconstruct_eval_world_hello

/-! ## C5: the hybrid similarity formula. -/

/-- The spec's hybrid formula (section 4.4, read literally): the
sequence-alignment ratio weighted 0.6, plus the token Jaccard similarity
(intersection over union of whitespace-split token sets) weighted 0.4, plus
the flat 0.2 substring bonus, the sum capped at 1. -/
def specHybridScore (str1 str2 : String) : ℚ :=
  let c1 := clean_text str1
  let c2 := clean_text str2
  let seq := seqSimilarity c1.data c2.data
  let jac : ℚ := ((tokenSet c1 ∩ tokenSet c2).card : ℚ) /
    ((tokenSet c1 ∪ tokenSet c2).card : ℚ)
  let bonus : ℚ :=
    if isSubstringOf c1.data c2.data || isSubstringOf c2.data c1.data then 1/5
    else 0
  min (seq * (3/5) + jac * (2/5) + bonus) 1

theorem foldl_fixed {α β : Type} (f : β → α → β) (b : β) (l : List α)
    (h : ∀ x ∈ l, f b x = b) : l.foldl f b = b := by
  induction l with
  | nil => rfl
  | cons x xs ih =>
    rw [List.foldl_cons, h x (by simp)]
    exact ih (fun y hy => h y (List.mem_cons_of_mem _ hy))

theorem commonRunLen_nil_right (a : List Char) : commonRunLen a [] = 0 := by
  cases a <;> rfl

theorem findLongestMatch_nil_left (b : List Char) :
    findLongestMatch [] b = (0, 0, 0) := by
  unfold findLongestMatch
  refine foldl_fixed _ _ _ (fun i _ => foldl_fixed _ _ _ (fun j _ => ?_))
  simp [commonRunLen]

theorem findLongestMatch_nil_right (a : List Char) :
    findLongestMatch a [] = (0, 0, 0) := by
  unfold findLongestMatch
  refine foldl_fixed _ _ _ (fun i _ => foldl_fixed _ _ _ (fun j _ => ?_))
  simp [commonRunLen_nil_right]

theorem matchSumF_nil_left (f : Nat) (b : List Char) : matchSumF f [] b = 0 := by
  cases f with
  | zero => rfl
  | succ fu =>
    simp [matchSumF, findLongestMatch_nil_left]

theorem matchSumF_nil_right (f : Nat) (a : List Char) : matchSumF f a [] = 0 := by
  cases f with
  | zero => rfl
  | succ fu =>
    simp [matchSumF, findLongestMatch_nil_right]

theorem seqSimilarity_nil_left (d : List Char) (hd : d ≠ []) :
    seqSimilarity [] d = 0 := by
  unfold seqSimilarity matchSum
  rw [if_neg (by simp [List.length_eq_zero, hd]), matchSumF_nil_left]
  norm_num

theorem seqSimilarity_nil_right (d : List Char) (hd : d ≠ []) :
    seqSimilarity d [] = 0 := by
  unfold seqSimilarity matchSum
  rw [if_neg (by simp [List.length_eq_zero, hd]), matchSumF_nil_right]
  norm_num

theorem isSubstringOf_nil_left (t : List Char) : isSubstringOf [] t = true := by
  unfold isSubstringOf
  rw [List.any_eq_true]
  refine ⟨0, by simp, ?_⟩
  cases t <;> rfl

theorem pySplitAux_tokens (l : List Char) :
    ∀ acc, (∀ c ∈ acc, ¬isPyWs c = true) →
      ∀ t ∈ pySplitAux acc l, t ≠ [] ∧ ∀ c ∈ t, ¬isPyWs c = true := by
  induction l with
  | nil =>
    intro acc hacc t ht
    simp only [pySplitAux] at ht
    split at ht
    · cases ht
    · rename_i hne
      rw [List.mem_singleton.mp ht]
      exact ⟨by simpa using hne, fun c hc => hacc c (List.mem_reverse.mp hc)⟩
  | cons c cs ih =>
    intro acc hacc t ht
    simp only [pySplitAux] at ht
    split at ht
    · rename_i hws
      split at ht
      · exact ih [] (by simp) t ht
      · rename_i hne
        rcases List.mem_cons.mp ht with rfl | ht
        · exact ⟨by simpa using hne, fun d hd => hacc d (List.mem_reverse.mp hd)⟩
        · exact ih [] (by simp) t ht
    · rename_i hws
      refine ih (c :: acc) ?_ t ht
      intro d hd
      rcases List.mem_cons.mp hd with rfl | hd
      · exact hws
      · exact hacc d hd

theorem pySplit_eq_nil_iff (l : List Char) :
    pySplit l = [] ↔ ∀ c ∈ l, isPyWs c = true := by
  have main : ∀ (m : List Char) acc,
      (pySplitAux acc m = [] ↔ acc = [] ∧ ∀ c ∈ m, isPyWs c = true) := by
    intro m
    induction m with
    | nil =>
      intro acc
      simp only [pySplitAux]
      split
      · rename_i h; simp [h]
      · rename_i h; simp [h]
    | cons c cs ih =>
      intro acc
      simp only [pySplitAux]
      split
      · rename_i hws
        split
        · rename_i h
          rw [ih []]
          simp [h, hws]
        · rename_i h
          simp [h, hws]
      · rename_i hws
        rw [ih (c :: acc)]
        simp [hws]
  rw [pySplit, main]
  simp

theorem joinWithSpace_all_ws (L : List (List Char))
    (hT : ∀ t ∈ L, t ≠ [] ∧ ∀ c ∈ t, ¬isPyWs c = true)
    (hws : ∀ c ∈ joinWithSpace L, isPyWs c = true) : L = [] := by
  cases L with
  | nil => rfl
  | cons t ts =>
    obtain ⟨hne, hfree⟩ := hT t (by simp)
    cases t with
    | nil => exact absurd rfl hne
    | cons c cr =>
      have hcmem : c ∈ joinWithSpace ((c :: cr) :: ts) := by
        cases ts <;> simp [joinWithSpace]
      exact absurd (hws c hcmem) (hfree c (by simp))

theorem tokenSet_nonempty (s : String) (h : clean_text s ≠ "") :
    tokenSet (clean_text s) ≠ ∅ := by
  intro habs
  apply h
  unfold tokenSet at habs
  rw [List.toFinset_eq_empty_iff, List.map_eq_nil, pySplit_eq_nil_iff] at habs
  have hL := pySplitAux_tokens
    ((s.data.map asciiLower).filter (fun c => c.isAlphanum || isPyWs c)) [] (by simp)
  have hsplit : pySplit
      ((s.data.map asciiLower).filter (fun c => c.isAlphanum || isPyWs c)) = [] :=
    joinWithSpace_all_ws _ hL habs
  show (⟨joinWithSpace (pySplit
    ((s.data.map asciiLower).filter (fun c => c.isAlphanum || isPyWs c)))⟩ : String) = ""
  rw [hsplit]
  rfl

theorem data_ne_nil_of_ne_empty {s : String} (h : s ≠ "") : s.data ≠ [] := by
  intro habs
  apply h
  cases s with
  | mk d =>
    have hd : d = [] := habs
    rw [hd]

/-- C5 counterexample: on two strings that both clean to empty (for example
bare punctuation), the similarity is 1.0 — the sequence ratio of two empty
strings is 1 and the substring bonus fires, capped at 1 — while the claimed
weighted formula yields 0.6 + 0.4 * (0/0 as 0) + 0.2 = 0.8. -/
theorem calculate_similarity_mismatch :
    calculate_similarity "!" "?" = 1 ∧ specHybridScore "!" "?" = 4/5 := by
  have hc1 : clean_text "!" = "" := by decide
  have hc2 : clean_text "?" = "" := by decide
  have htok : tokenSet "" = ∅ := rfl
  have hseq : seqSimilarity ("" : String).data ("" : String).data = 1 := rfl
  have hsub : isSubstringOf ("" : String).data ("" : String).data = true := rfl
  constructor
  · simp only [calculate_similarity, hc1, hc2, htok, hseq, hsub]
    norm_num
  · simp only [specHybridScore, hc1, hc2, htok, hseq, hsub]
    norm_num

/-- C5 amended: whenever at least one of the two strings cleans to a
nonempty string, the hybrid score equals the spec formula (ratio times 0.6
plus Jaccard times 0.4 plus the 0.2 substring bonus, capped at 1); only the
degenerate case of two empty cleaned strings deviates (see the
counterexample). -/
theorem calculate_similarity_eq_spec (s1 s2 : String)
    (h : clean_text s1 ≠ "" ∨ clean_text s2 ≠ "") :
    calculate_similarity s1 s2 = specHybridScore s1 s2 := by
  by_cases h1 : clean_text s1 = ""
  · have h2 : clean_text s2 ≠ "" := by
      rcases h with ha | hb
      · exact absurd h1 ha
      · exact hb
    have htok1 : tokenSet (clean_text s1) = ∅ := by rw [h1]; rfl
    have hd2 : (clean_text s2).data ≠ [] := data_ne_nil_of_ne_empty h2
    have hseq : seqSimilarity (clean_text s1).data (clean_text s2).data = 0 := by
      rw [h1]
      exact seqSimilarity_nil_left _ hd2
    have hsub : isSubstringOf (clean_text s1).data (clean_text s2).data = true := by
      rw [h1]
      exact isSubstringOf_nil_left _
    simp only [calculate_similarity, specHybridScore, htok1, hseq, hsub,
      Bool.true_or, if_true, ne_eq, not_true_eq_false, false_and, if_false,
      Finset.empty_inter, Finset.card_empty, Nat.cast_zero, zero_div]
    norm_num
  · by_cases h2 : clean_text s2 = ""
    · have htok2 : tokenSet (clean_text s2) = ∅ := by rw [h2]; rfl
      have hd1 : (clean_text s1).data ≠ [] := data_ne_nil_of_ne_empty h1
      have hseq : seqSimilarity (clean_text s1).data (clean_text s2).data = 0 := by
        rw [h2]
        exact seqSimilarity_nil_right _ hd1
      have hsub : isSubstringOf (clean_text s2).data (clean_text s1).data = true := by
        rw [h2]
        exact isSubstringOf_nil_left _
      simp only [calculate_similarity, specHybridScore, htok2, hseq, hsub,
        Bool.or_true, if_true, ne_eq, not_true_eq_false, and_false, if_false,
        Finset.inter_empty, Finset.card_empty, Nat.cast_zero, zero_div]
      norm_num
    · have hw1 : tokenSet (clean_text s1) ≠ ∅ := tokenSet_nonempty s1 h1
      have hw2 : tokenSet (clean_text s2) ≠ ∅ := tokenSet_nonempty s2 h2
      have hcard : 0 < (tokenSet (clean_text s1) ∪ tokenSet (clean_text s2)).card := by
        refine Finset.card_pos.mpr ?_
        exact (Finset.nonempty_iff_ne_empty.mpr hw1).mono Finset.subset_union_left
      simp only [calculate_similarity, specHybridScore]
      rw [if_pos ⟨hw1, hw2⟩, if_pos hcard]

/-- C5 amended witness: the formula agreement at a concrete pair. -/
theorem calculate_similarity_eq_spec_witness :
    calculate_similarity "ab" "ab" = specHybridScore "ab" "ab" :=
  calculate_similarity_eq_spec "ab" "ab" (Or.inl (by decide))

/-! ## C7: idempotence of the cleaning transform.

The proof characterizes the image of `cleanLine`: its characters are all in
the kept class, whitespace appears only as single interior spaces, and no
digit-run-then-k match remains; each stage is then the identity on such
strings. -/

theorem charLe_toNat {a b : Char} : a ≤ b ↔ a.toNat ≤ b.toNat := by
  rw [Char.le_def]
  exact Iff.rfl

theorem ws_cases {c : Char} (h : isPyWs c = true) :
    c = ' ' ∨ c = '\t' ∨ c = '\n' ∨ c = '\r' ∨ c = '\x0b' ∨ c = '\x0c' := by
  simpa [isPyWs, or_assoc] using h

theorem ws_not_word {c : Char} (h : isPyWs c = true) : isWordChar c = false := by
  rcases ws_cases h with rfl | rfl | rfl | rfl | rfl | rfl <;> decide

theorem ws_not_digit {c : Char} (h : isPyWs c = true) : isDigitC c = false := by
  rcases ws_cases h with rfl | rfl | rfl | rfl | rfl | rfl <;> decide

theorem ws_ne_k {c : Char} (h : isPyWs c = true) : c ≠ 'k' := by
  rcases ws_cases h with rfl | rfl | rfl | rfl | rfl | rfl <;> decide

theorem digit_is_word {c : Char} (h : isDigitC c = true) : isWordChar c = true := by
  simp only [isDigitC] at h
  simp [isWordChar, Char.isAlphanum, Char.isAlpha, h]

theorem not_word_not_digit {c : Char} (h : isWordChar c = false) :
    isDigitC c = false := by
  by_contra habs
  rw [digit_is_word (by simpa using habs)] at h
  cases h

theorem not_word_ne_k {c : Char} (h : isWordChar c = false) : c ≠ 'k' := by
  rintro rfl
  cases h

/-- The facts each cleaning stage needs about a kept character: lowercasing
leaves it alone and it is none of the stripped or replaced symbols. -/
theorem kept_char_facts {c : Char} (h : isKeptChar c = true) :
    asciiLower c = c ∧ (!(c = '<' || c = '>')) = true ∧ (!(c = ':')) = true ∧
      isNoiseSym c = false := by
  have hlow : ∀ d : Char, ¬('A' ≤ d ∧ d ≤ 'Z') → asciiLower d = d := by
    intro d hd
    unfold asciiLower
    rw [if_neg hd]
  have hne : ∀ d : Char, c.toNat ≠ d.toNat → c ≠ d := by
    intro d hd heq
    exact hd (by rw [heq])
  simp only [isKeptChar, Bool.or_eq_true, isLowerAZ, isDigitC,
    Bool.and_eq_true, decide_eq_true_eq, Char.isDigit, or_assoc] at h
  rcases h with ⟨h1, h2⟩ | ⟨h1, h2⟩ | hws | rfl | rfl
  · rw [charLe_toNat] at h1 h2
    have ha : ('a' : Char).toNat = 97 := by decide
    have hz : ('z' : Char).toNat = 122 := by decide
    rw [ha] at h1
    rw [hz] at h2
    refine ⟨hlow c ?_, ?_, ?_, ?_⟩
    · rintro ⟨g1, g2⟩
      rw [charLe_toNat] at g2
      have hZ : ('Z' : Char).toNat = 90 := by decide
      rw [hZ] at g2
      omega
    · simp only [Bool.not_eq_true', Bool.or_eq_false_iff, decide_eq_false_iff_not]
      refine ⟨hne _ ?_, hne _ ?_⟩
      · have hv : ('<' : Char).toNat = 60 := by decide
        rw [hv]; omega
      · have hv : ('>' : Char).toNat = 62 := by decide
        rw [hv]; omega
    · simp only [Bool.not_eq_true', decide_eq_false_iff_not]
      refine hne _ ?_
      have h58 : (':' : Char).toNat = 58 := by decide
      rw [h58]; omega
    · simp only [isNoiseSym, Bool.or_eq_false_iff, decide_eq_false_iff_not]
      refine ⟨⟨⟨⟨hne _ ?_, hne _ ?_⟩, hne _ ?_⟩, hne _ ?_⟩, hne _ ?_⟩
      · have hv : ('*' : Char).toNat = 42 := by decide
        rw [hv]; omega
      · have hv : ('/' : Char).toNat = 47 := by decide
        rw [hv]; omega
      · have hv : ('×' : Char).toNat = 215 := by decide
        rw [hv]; omega
      · have hv : ('-' : Char).toNat = 45 := by decide
        rw [hv]; omega
      · have hv : ('–' : Char).toNat = 8211 := by decide
        rw [hv]; omega
  · have h1 : 48 ≤ c.toNat := h1
    have h2 : c.toNat ≤ 57 := h2
    refine ⟨hlow c ?_, ?_, ?_, ?_⟩
    · rintro ⟨g1, g2⟩
      rw [charLe_toNat] at g1
      have hA : ('A' : Char).toNat = 65 := by decide
      rw [hA] at g1
      omega
    · simp only [Bool.not_eq_true', Bool.or_eq_false_iff, decide_eq_false_iff_not]
      refine ⟨hne _ ?_, hne _ ?_⟩
      · have hv : ('<' : Char).toNat = 60 := by decide
        rw [hv]; omega
      · have hv : ('>' : Char).toNat = 62 := by decide
        rw [hv]; omega
    · simp only [Bool.not_eq_true', decide_eq_false_iff_not]
      refine hne _ ?_
      have h58 : (':' : Char).toNat = 58 := by decide
      rw [h58]; omega
    · simp only [isNoiseSym, Bool.or_eq_false_iff, decide_eq_false_iff_not]
      refine ⟨⟨⟨⟨hne _ ?_, hne _ ?_⟩, hne _ ?_⟩, hne _ ?_⟩, hne _ ?_⟩
      · have hv : ('*' : Char).toNat = 42 := by decide
        rw [hv]; omega
      · have hv : ('/' : Char).toNat = 47 := by decide
        rw [hv]; omega
      · have hv : ('×' : Char).toNat = 215 := by decide
        rw [hv]; omega
      · have hv : ('-' : Char).toNat = 45 := by decide
        rw [hv]; omega
      · have hv : ('–' : Char).toNat = 8211 := by decide
        rw [hv]; omega
  · rcases ws_cases hws with rfl | rfl | rfl | rfl | rfl | rfl <;>
      exact ⟨by decide, by decide, by decide, by decide⟩
  · exact ⟨by decide, by decide, by decide, by decide⟩
  · exact ⟨by decide, by decide, by decide, by decide⟩

/-- All characters are ASCII digits. -/
def allDigits (l : List Char) : Bool := l.all isDigitC

/-- The scan of `kExpandAux` with the substitution replaced by failure: `true`
iff no `\b(\d+)k\b(?![0-9])` match fires anywhere in the scan. -/
def kFreeAux (bnd : Bool) (run : List Char) : List Char → Bool
  | [] => true
  | c :: cs =>
    if isDigitC c then kFreeAux bnd (run ++ [c]) cs
    else if kFires bnd run c cs then false
    else kFreeAux (!isWordChar c) [] cs

/-- The negative lookahead of `kFires`: the next character is absent or not a
word character. -/
def lookNW (cs : List Char) : Bool :=
  match cs with
  | [] => true
  | d :: _ => !isWordChar d

theorem kFires_eq (bnd : Bool) (run : List Char) (c : Char) (cs : List Char) :
    kFires bnd run c cs =
      (decide (c = 'k') && !decide (run = []) && bnd && lookNW cs) := by
  cases cs <;> rfl

theorem digit_kept {c : Char} (h : isDigitC c = true) : isKeptChar c = true := by
  simp [isKeptChar, h]

theorem allDigits_sub {l m : List Char} (hs : m.Sublist l) (h : allDigits l = true) :
    allDigits m = true := by
  rw [allDigits, List.all_eq_true] at h ⊢
  exact fun c hc => h c (hs.subset hc)

theorem timesThousand_allDigits {run : List Char} (h : allDigits run = true) :
    allDigits (timesThousand run) = true := by
  simp only [timesThousand]
  split
  · decide
  · rw [allDigits, List.all_append]
    have h1 : allDigits (run.dropWhile (fun c => c = '0')) = true :=
      allDigits_sub (List.dropWhile_sublist _) h
    rw [allDigits] at h1
    rw [h1]
    decide

theorem timesThousand_ne_nil (run : List Char) : timesThousand run ≠ [] := by
  simp only [timesThousand]
  split
  · simp
  · simp

theorem mem_pyStrip {l : List Char} {c : Char} (hc : c ∈ pyStrip l) : c ∈ l := by
  simp only [pyStrip, List.mem_reverse] at hc
  have h1 : c ∈ (l.dropWhile isPyWs).reverse := (List.dropWhile_sublist _).subset hc
  rw [List.mem_reverse] at h1
  exact (List.dropWhile_sublist _).subset h1

theorem mem_kExpandAux {bnd : Bool} {run l : List Char} {c : Char}
    (hrun : allDigits run = true) (hl : ∀ d ∈ l, isKeptChar d = true)
    (hc : c ∈ kExpandAux bnd run l) : isKeptChar c = true := by
  induction l generalizing bnd run with
  | nil =>
    simp only [kExpandAux] at hc
    rw [allDigits, List.all_eq_true] at hrun
    exact digit_kept (hrun c hc)
  | cons d ds ih =>
    simp only [kExpandAux] at hc
    split at hc
    · refine ih ?_ (fun e he => hl e (List.mem_cons_of_mem _ he)) hc
      rw [allDigits, List.all_append, Bool.and_eq_true]
      refine ⟨hrun, ?_⟩
      simpa [allDigits] using by assumption
    · split at hc
      · rcases List.mem_append.mp hc with hm | hm
        · exact digit_kept (by
            have := timesThousand_allDigits hrun
            rw [allDigits, List.all_eq_true] at this
            exact this c hm)
        · exact ih (show allDigits [] = true from rfl) (fun e he => hl e (List.mem_cons_of_mem _ he)) hm
      · rcases List.mem_append.mp hc with hm | hm
        · rw [allDigits, List.all_eq_true] at hrun
          exact digit_kept (hrun c hm)
        · rcases List.mem_cons.mp hm with rfl | hm2
          · exact hl c (List.mem_cons_self _ _)
          · exact ih (show allDigits [] = true from rfl) (fun e he => hl e (List.mem_cons_of_mem _ he)) hm2

theorem mem_squeezeAux {pw : Bool} {l : List Char} {c : Char}
    (hl : ∀ d ∈ l, isKeptChar d = true) (hc : c ∈ squeezeAux pw l) :
    isKeptChar c = true := by
  induction l generalizing pw with
  | nil => simp [squeezeAux] at hc
  | cons d ds ih =>
    simp only [squeezeAux] at hc
    split at hc
    · split at hc
      · exact ih (fun e he => hl e (List.mem_cons_of_mem _ he)) hc
      · rcases List.mem_cons.mp hc with rfl | hm
        · decide
        · exact ih (fun e he => hl e (List.mem_cons_of_mem _ he)) hm
    · rcases List.mem_cons.mp hc with rfl | hm
      · exact hl c (List.mem_cons_self _ _)
      · exact ih (fun e he => hl e (List.mem_cons_of_mem _ he)) hm

/-- Every character of a cleaned line is in the kept class
`[a-z0-9\s.x]` (whitespace being the single spaces the squeeze leaves). -/
theorem cleanLine_chars (s : String) :
    ∀ c ∈ (cleanLine s).data, isKeptChar c = true := by
  intro c hc
  have hc2 : c ∈ squeezeWs (kExpand (stripDisallowed (noiseReplace (stripColons
      (stripAngles (pyStrip (s.data.map asciiLower))))))) := mem_pyStrip hc
  refine mem_squeezeAux (fun d hd => ?_) hc2
  refine mem_kExpandAux (show allDigits [] = true from rfl) (fun e he => ?_) hd
  exact (List.mem_filter.mp he).2

theorem map_id_of_mem {α : Type} {f : α → α} {l : List α}
    (h : ∀ c ∈ l, f c = c) : l.map f = l := by
  induction l with
  | nil => rfl
  | cons c cs ih =>
    rw [List.map_cons, h c (List.mem_cons_self _ _),
      ih (fun e he => h e (List.mem_cons_of_mem _ he))]

theorem noiseReplace_eq_self {l : List Char}
    (h : ∀ c ∈ l, isNoiseSym c = false) : noiseReplace l = l := by
  induction l with
  | nil => rfl
  | cons c cs ih =>
    rw [noiseReplace, List.flatMap_cons, if_neg (by
      rw [h c (List.mem_cons_self _ _)]; exact fun hx => nomatch hx)]
    rw [noiseReplace] at ih
    rw [ih (fun e he => h e (List.mem_cons_of_mem _ he))]
    rfl

theorem head_dropWhile_not {α : Type} {p : α → Bool} {l : List α} {c : α}
    (h : (l.dropWhile p).head? = some c) : p c = false := by
  induction l with
  | nil => simp [List.dropWhile] at h
  | cons d ds ih =>
    rw [List.dropWhile_cons] at h
    split at h
    · exact ih h
    · simp only [List.head?_cons, Option.some.injEq] at h
      subst h
      simp_all

theorem dropWhile_eq_self_of_head {α : Type} {p : α → Bool} {l : List α}
    (h : ∀ c, l.head? = some c → p c = false) : l.dropWhile p = l := by
  cases l with
  | nil => rfl
  | cons c cs => rw [List.dropWhile_cons, if_neg (by simp [h c rfl])]

theorem dropWhile_idem {α : Type} {p : α → Bool} {l : List α} :
    (l.dropWhile p).dropWhile p = l.dropWhile p :=
  dropWhile_eq_self_of_head (fun _ hc => head_dropWhile_not hc)

theorem getLast_append_ne_nil {α : Type} {l1 l2 : List α} (h : l2 ≠ []) :
    (l1 ++ l2).getLast? = l2.getLast? := by
  induction l1 with
  | nil => rfl
  | cons c cs ih =>
    rw [List.cons_append, List.getLast?_cons, ih]
    cases l2 with
    | nil => exact absurd rfl h
    | cons d ds => simp [List.getLast?_cons]

theorem dropWhile_getLast {α : Type} {p : α → Bool} {l : List α}
    (h : l.dropWhile p ≠ []) : (l.dropWhile p).getLast? = l.getLast? := by
  conv_rhs => rw [← List.takeWhile_append_dropWhile (p := p) (l := l)]
  exact (getLast_append_ne_nil h).symm

theorem kFreeAux_allDigits {w : List Char} (h : allDigits w = true) :
    ∀ b r, kFreeAux b r w = true := by
  induction w with
  | nil => intro b r; rfl
  | cons c cs ih =>
    intro b r
    rw [allDigits, List.all_cons, Bool.and_eq_true] at h
    rw [kFreeAux, if_pos h.1]
    exact ih h.2 b (r ++ [c])

theorem kFreeAux_digit_shift {w : List Char} (h : allDigits w = true) :
    ∀ b r L, kFreeAux b r (w ++ L) = kFreeAux b (r ++ w) L := by
  induction w with
  | nil => intro b r L; rw [List.nil_append, List.append_nil]
  | cons c cs ih =>
    intro b r L
    rw [allDigits, List.all_cons, Bool.and_eq_true] at h
    rw [List.cons_append, kFreeAux, if_pos h.1, ih h.2, List.append_assoc,
      List.singleton_append]

theorem kExpandAux_of_kFree {l : List Char} :
    ∀ bnd run, kFreeAux bnd run l = true → kExpandAux bnd run l = run ++ l := by
  induction l with
  | nil => intro bnd run _; rw [kExpandAux, List.append_nil]
  | cons c cs ih =>
    intro bnd run h
    rw [kFreeAux] at h
    rw [kExpandAux]
    by_cases hd : isDigitC c = true
    · rw [if_pos hd] at h ⊢
      rw [ih _ _ h, List.append_assoc, List.singleton_append]
    · rw [if_neg hd] at h ⊢
      by_cases hf : kFires bnd run c cs = true
      · rw [if_pos hf] at h
        cases h
      · rw [if_neg hf] at h ⊢
        rw [ih _ _ h, List.nil_append]

theorem kExpandAux_head_digit {l : List Char} :
    ∀ bnd run, run ≠ [] → allDigits run = true →
      ∃ d, (kExpandAux bnd run l).head? = some d ∧ isDigitC d = true := by
  induction l with
  | nil =>
    intro bnd run hne hdig
    cases run with
    | nil => exact absurd rfl hne
    | cons r rs =>
      rw [allDigits, List.all_cons, Bool.and_eq_true] at hdig
      exact ⟨r, rfl, hdig.1⟩
  | cons c cs ih =>
    intro bnd run hne hdig
    rw [kExpandAux]
    by_cases hd : isDigitC c = true
    · rw [if_pos hd]
      refine ih bnd (run ++ [c]) (by simp) ?_
      rw [allDigits, List.all_append, Bool.and_eq_true]
      exact ⟨hdig, by simp [List.all_cons, hd]⟩
    · rw [if_neg hd]
      by_cases hf : kFires bnd run c cs = true
      · rw [if_pos hf]
        have htt := timesThousand_allDigits hdig
        cases htn : timesThousand run with
        | nil => exact absurd htn (timesThousand_ne_nil run)
        | cons t ts =>
          rw [htn, allDigits, List.all_cons, Bool.and_eq_true] at htt
          exact ⟨t, rfl, htt.1⟩
      · rw [if_neg hf]
        cases run with
        | nil => exact absurd rfl hne
        | cons r rs =>
          rw [allDigits, List.all_cons, Bool.and_eq_true] at hdig
          exact ⟨r, by rw [List.cons_append]; rfl, hdig.1⟩

/-- The substituted string contains no further `\b(\d+)k\b(?![0-9])` match:
the scan of the output of `kExpandAux` never fires. -/
theorem kFree_of_kExpand :
    ∀ n l bnd run, l.length ≤ n → allDigits run = true →
      kFreeAux bnd [] (kExpandAux bnd run l) = true := by
  intro n
  induction n with
  | zero =>
    intro l bnd run hlen hdig
    rw [List.length_eq_zero.mp (Nat.le_zero.mp hlen), kExpandAux]
    exact kFreeAux_allDigits hdig bnd []
  | succ n ih =>
    intro l bnd run hlen hdig
    cases l with
    | nil =>
      rw [kExpandAux]
      exact kFreeAux_allDigits hdig bnd []
    | cons c cs =>
      rw [List.length_cons] at hlen
      rw [kExpandAux]
      by_cases hd : isDigitC c = true
      · rw [if_pos hd]
        refine ih cs bnd (run ++ [c]) (by omega) ?_
        rw [allDigits, List.all_append, Bool.and_eq_true]
        exact ⟨hdig, by simp [List.all_cons, hd]⟩
      · rw [if_neg hd]
        by_cases hf : kFires bnd run c cs = true
        · rw [if_pos hf]
          rw [kFires_eq] at hf
          simp only [Bool.and_eq_true, decide_eq_true_eq, Bool.not_eq_true',
            decide_eq_false_iff_not] at hf
          obtain ⟨⟨⟨hck, hrn⟩, hbnd⟩, hlk⟩ := hf
          rw [kFreeAux_digit_shift (timesThousand_allDigits hdig),
            List.nil_append]
          cases cs with
          | nil => rw [kExpandAux]; rfl
          | cons d cs2 =>
            rw [List.length_cons] at hlen
            simp only [lookNW, Bool.not_eq_true'] at hlk
            rw [kExpandAux, if_neg (by simp [not_word_not_digit hlk]),
              if_neg (by rw [kFires_eq]; simp),
              List.nil_append, hlk, Bool.not_false]
            rw [kFreeAux, if_neg (by simp [not_word_not_digit hlk]),
              if_neg (by
                rw [kFires_eq, decide_eq_false (not_word_ne_k hlk)]
                simp),
              hlk, Bool.not_false]
            exact ih cs2 true [] (by omega) rfl
        · rw [if_neg hf]
          rw [kFreeAux_digit_shift hdig, List.nil_append]
          have hf2 : kFires bnd run c cs = false := by
            revert hf
            cases kFires bnd run c cs <;> simp
          have hfR : kFires bnd run c (kExpandAux (!isWordChar c) [] cs)
              = false := by
            rw [kFires_eq] at hf2 ⊢
            by_cases hABb : ((decide (c = 'k') && !decide (run = [])) && bnd)
                = true
            · rw [hABb, Bool.true_and] at hf2 ⊢
              simp only [Bool.and_eq_true, decide_eq_true_eq,
                Bool.not_eq_true', decide_eq_false_iff_not] at hABb
              obtain ⟨⟨hck, hrn⟩, hbnd⟩ := hABb
              cases cs with
              | nil => cases hf2
              | cons d cs2 =>
                simp only [lookNW, Bool.not_eq_false] at hf2
                have hkw : isWordChar 'k' = true := by decide
                rw [hck, hkw, Bool.not_true]
                by_cases hdd : isDigitC d = true
                · rw [kExpandAux, if_pos hdd, List.nil_append]
                  obtain ⟨e, he, hde⟩ := @kExpandAux_head_digit cs2 false [d]
                    (by simp) (by simp [allDigits, List.all_cons, hdd])
                  cases hR : kExpandAux false [d] cs2 with
                  | nil =>
                    rw [hR] at he
                    cases he
                  | cons e2 es =>
                    rw [hR] at he
                    simp only [List.head?_cons, Option.some.injEq] at he
                    subst he
                    simp only [lookNW, digit_is_word hde, Bool.not_true]
                · rw [kExpandAux, if_neg hdd,
                    if_neg (by rw [kFires_eq]; simp), List.nil_append]
                  simp only [lookNW, hf2, Bool.not_true]
            · have hfalse : ((decide (c = 'k') && !decide (run = [])) && bnd)
                  = false := by
                revert hABb
                cases ((decide (c = 'k') && !decide (run = [])) && bnd) <;> simp
              rw [hfalse, Bool.false_and]
          rw [kFreeAux, if_neg hd, if_neg (by simp [hfR])]
          exact ih cs (!isWordChar c) [] (by omega) rfl

theorem lookNW_squeeze (cs : List Char) :
    lookNW (squeezeAux false cs) = lookNW cs := by
  cases cs with
  | nil => rfl
  | cons d cs2 =>
    by_cases hws : isPyWs d = true
    · rw [squeezeAux, if_pos hws, if_neg (by simp)]
      simp only [lookNW, ws_not_word hws]
      decide
    · rw [squeezeAux, if_neg hws]
      simp only [lookNW]

theorem kFree_squeeze :
    ∀ l bnd run pw, (pw = true → run = [] ∧ bnd = true) →
      kFreeAux bnd run l = true → kFreeAux bnd run (squeezeAux pw l) = true := by
  intro l
  induction l with
  | nil => intro bnd run pw _ _; cases pw <;> rfl
  | cons c cs ih =>
    intro bnd run pw hcpl hfree
    by_cases hws : isPyWs c = true
    · have hd : isDigitC c = false := ws_not_digit hws
      have h2 : kFreeAux true [] cs = true := by
        rw [kFreeAux, if_neg (by simp [hd]),
          if_neg (by rw [kFires_eq, decide_eq_false (ws_ne_k hws)]; simp),
          ws_not_word hws, Bool.not_false] at hfree
        exact hfree
      rw [squeezeAux, if_pos hws]
      by_cases hpw : pw = true
      · rw [if_pos hpw]
        obtain ⟨hr, hb⟩ := hcpl hpw
        subst hr
        subst hb
        exact ih true [] true (fun _ => ⟨rfl, rfl⟩) h2
      · rw [if_neg hpw]
        rw [kFreeAux, if_neg (by decide), if_neg (by rw [kFires_eq]; simp)]
        have hsp : (!isWordChar ' ') = true := by decide
        rw [hsp]
        exact ih true [] true (fun _ => ⟨rfl, rfl⟩) h2
    · rw [squeezeAux, if_neg hws]
      by_cases hd : isDigitC c = true
      · rw [kFreeAux, if_pos hd] at hfree ⊢
        exact ih bnd (run ++ [c]) false (fun hx => nomatch hx) hfree
      · by_cases hf : kFires bnd run c cs = true
        · rw [kFreeAux, if_neg hd, if_pos hf] at hfree
          cases hfree
        · have hkR : kFires bnd run c (squeezeAux false cs)
              = kFires bnd run c cs := by
            rw [kFires_eq, kFires_eq, lookNW_squeeze]
          rw [kFreeAux, if_neg hd, if_neg hf] at hfree
          rw [kFreeAux, if_neg hd, if_neg (by rw [hkR]; exact hf)]
          exact ih (!isWordChar c) [] false (fun hx => nomatch hx) hfree

theorem kFree_dropWhile_ws {l : List Char} (h : kFreeAux true [] l = true) :
    kFreeAux true [] (l.dropWhile isPyWs) = true := by
  induction l with
  | nil => exact h
  | cons c cs ih =>
    rw [List.dropWhile_cons]
    by_cases hws : isPyWs c = true
    · rw [if_pos hws]
      refine ih ?_
      rw [kFreeAux, if_neg (by simp [ws_not_digit hws]),
        if_neg (by rw [kFires_eq, decide_eq_false (ws_ne_k hws)]; simp),
        ws_not_word hws, Bool.not_false] at h
      exact h
    · rw [if_neg hws]
      exact h

theorem kFree_drop_ws_suffix :
    ∀ m w bnd run, (∀ c ∈ w, isPyWs c = true) →
      kFreeAux bnd run (m ++ w) = true → kFreeAux bnd run m = true := by
  intro m
  induction m with
  | nil => intro w bnd run _ _; rfl
  | cons c ms ih =>
    intro w bnd run hws hfree
    rw [List.cons_append] at hfree
    by_cases hd : isDigitC c = true
    · rw [kFreeAux, if_pos hd] at hfree ⊢
      exact ih w bnd (run ++ [c]) hws hfree
    · have hkE : kFires bnd run c (ms ++ w) = kFires bnd run c ms := by
        rw [kFires_eq, kFires_eq]
        have hlook : lookNW (ms ++ w) = lookNW ms := by
          cases ms with
          | nil =>
            cases w with
            | nil => rfl
            | cons v vs =>
              simp only [List.nil_append, lookNW,
                ws_not_word (hws v (List.mem_cons_self _ _))]
              decide
          | cons d ds => simp only [List.cons_append, lookNW]
        rw [hlook]
      by_cases hf : kFires bnd run c (ms ++ w) = true
      · rw [kFreeAux, if_neg hd, if_pos hf] at hfree
        cases hfree
      · rw [kFreeAux, if_neg hd, if_neg hf] at hfree
        rw [kFreeAux, if_neg hd, if_neg (by rw [← hkE]; exact hf)]
        exact ih w (!isWordChar c) [] hws hfree

theorem kFree_pyStrip {l : List Char} (h : kFreeAux true [] l = true) :
    kFreeAux true [] (pyStrip l) = true := by
  have hA := kFree_dropWhile_ws h
  have hdec : l.dropWhile isPyWs =
      pyStrip l ++ ((l.dropWhile isPyWs).reverse.takeWhile isPyWs).reverse := by
    conv_lhs => rw [← List.reverse_reverse (l.dropWhile isPyWs),
      ← List.takeWhile_append_dropWhile
        (p := isPyWs) (l := (l.dropWhile isPyWs).reverse)]
    rw [List.reverse_append]
    rfl
  rw [hdec] at hA
  refine kFree_drop_ws_suffix _ _ _ _ (fun c hc => ?_) hA
  rw [List.mem_reverse] at hc
  exact List.mem_takeWhile_imp hc

theorem squeezeAux_all_space :
    ∀ l pw c, c ∈ squeezeAux pw l → isPyWs c = true → c = ' ' := by
  intro l
  induction l with
  | nil => intro pw c hc; simp [squeezeAux] at hc
  | cons d ds ih =>
    intro pw c hc hwc
    rw [squeezeAux] at hc
    split at hc
    · split at hc
      · exact ih true c hc hwc
      · rcases List.mem_cons.mp hc with rfl | hm
        · rfl
        · exact ih true c hm hwc
    · rcases List.mem_cons.mp hc with rfl | hm
      · simp_all
      · exact ih false c hm hwc

theorem squeezeAux_true_head :
    ∀ l c, (squeezeAux true l).head? = some c → isPyWs c = false := by
  intro l
  induction l with
  | nil => intro c hc; cases hc
  | cons d ds ih =>
    intro c hc
    rw [squeezeAux] at hc
    split at hc
    · exact ih c hc
    · rw [List.head?_cons, Option.some.injEq] at hc
      subst hc
      simp_all

theorem squeezeAux_chain :
    ∀ l pw, List.Chain' (fun a b => isPyWs a = true → isPyWs b = false)
      (squeezeAux pw l) := by
  intro l
  induction l with
  | nil => intro pw; cases pw <;> exact List.chain'_nil
  | cons d ds ih =>
    intro pw
    rw [squeezeAux]
    split
    · split
      · exact ih true
      · rw [List.chain'_cons']
        exact ⟨fun b hb _ => squeezeAux_true_head ds b hb, ih true⟩
    · rw [List.chain'_cons']
      refine ⟨fun b hb hwd => absurd hwd (by assumption), ih false⟩

theorem nwp_tail {d : Char} {ds : List Char}
    (h : List.Chain' (fun a b => isPyWs a = true → isPyWs b = false) (d :: ds)) :
    List.Chain' (fun a b => isPyWs a = true → isPyWs b = false) ds :=
  (List.chain'_cons'.mp h).2

theorem nwp_dropWhile {p : Char → Bool} {l : List Char}
    (h : List.Chain' (fun a b => isPyWs a = true → isPyWs b = false) l) :
    List.Chain' (fun a b => isPyWs a = true → isPyWs b = false)
      (l.dropWhile p) := by
  induction l with
  | nil => exact h
  | cons d ds ih =>
    rw [List.dropWhile_cons]
    split
    · exact ih (nwp_tail h)
    · exact h

theorem nwp_reverse {l : List Char}
    (h : List.Chain' (fun a b => isPyWs a = true → isPyWs b = false) l) :
    List.Chain' (fun a b => isPyWs a = true → isPyWs b = false) l.reverse := by
  rw [List.chain'_reverse]
  refine h.imp ?_
  intro a b hab hwb
  cases hwa : isPyWs a with
  | false => rfl
  | true =>
    have hfb := hab hwa
    rw [hfb] at hwb
    cases hwb

theorem nwp_pyStrip {l : List Char}
    (h : List.Chain' (fun a b => isPyWs a = true → isPyWs b = false) l) :
    List.Chain' (fun a b => isPyWs a = true → isPyWs b = false) (pyStrip l) :=
  nwp_reverse (nwp_dropWhile (nwp_reverse (nwp_dropWhile h)))

theorem squeezeAux_eq_self :
    ∀ l pw, (∀ c ∈ l, isPyWs c = true → c = ' ') →
      List.Chain' (fun a b => isPyWs a = true → isPyWs b = false) l →
      (pw = true → ∀ c, l.head? = some c → isPyWs c = false) →
      squeezeAux pw l = l := by
  intro l
  induction l with
  | nil => intro pw _ _ _; cases pw <;> rfl
  | cons d ds ih =>
    intro pw hall hch hhd
    by_cases hws : isPyWs d = true
    · have hpw : pw = false := by
        cases pw with
        | false => rfl
        | true =>
          rw [hhd rfl d rfl] at hws
          cases hws
      subst hpw
      rw [squeezeAux, if_pos hws, if_neg (by simp),
        hall d (List.mem_cons_self _ _) hws]
      have hds : squeezeAux true ds = ds := by
        refine ih true (fun c hc hwc => hall c (List.mem_cons_of_mem _ hc) hwc)
          (nwp_tail hch) ?_
        intro _ c hc
        cases ds with
        | nil => cases hc
        | cons e es =>
          rw [List.head?_cons, Option.some.injEq] at hc
          subst hc
          exact (List.chain'_cons'.mp hch).1 e rfl hws
      rw [hds]
    · rw [squeezeAux, if_neg hws]
      rw [ih false (fun c hc hwc => hall c (List.mem_cons_of_mem _ hc) hwc)
        (nwp_tail hch) (fun hx => nomatch hx)]

/-- Stripping is idempotent. -/
theorem pyStrip_idem {l : List Char} : pyStrip (pyStrip l) = pyStrip l := by
  simp only [pyStrip]
  rw [dropWhile_eq_self_of_head (p := isPyWs) (l := ((l.dropWhile
    isPyWs).reverse.dropWhile isPyWs).reverse) ?hd]
  · rw [List.reverse_reverse, dropWhile_idem]
  case hd =>
    intro c hc
    rw [List.head?_reverse] at hc
    by_cases hB : (l.dropWhile isPyWs).reverse.dropWhile isPyWs = []
    · rw [hB] at hc
      cases hc
    · rw [dropWhile_getLast hB, List.getLast?_reverse] at hc
      exact head_dropWhile_not hc

set_option maxHeartbeats 2000000 in
/-- C7: the line-cleaning transform of `extract_items_from_text`
(`ocr_routes.py` lines 52-63: lowercase and strip, drop angle brackets and
colons, replace receipt-noise symbols by a spaced x, drop disallowed
characters, expand digit-runs followed by k as times 1000, collapse
whitespace and strip) is idempotent: cleaning an already-cleaned line
returns it unchanged. -/
theorem cleanLine_idempotent (s : String) :
    cleanLine (cleanLine s) = cleanLine s := by
  have hkept : ∀ c ∈ (cleanLine s).data, isKeptChar c = true :=
    cleanLine_chars s
  have hl1 : (cleanLine s).data.map asciiLower = (cleanLine s).data :=
    map_id_of_mem (fun c hc => (kept_char_facts (hkept c hc)).1)
  have hstrip : pyStrip ((cleanLine s).data) = (cleanLine s).data :=
    pyStrip_idem
  have hang : stripAngles ((cleanLine s).data) = (cleanLine s).data :=
    List.filter_eq_self.mpr (fun c hc => (kept_char_facts (hkept c hc)).2.1)
  have hcol : stripColons ((cleanLine s).data) = (cleanLine s).data :=
    List.filter_eq_self.mpr (fun c hc => (kept_char_facts (hkept c hc)).2.2.1)
  have hnoise : noiseReplace ((cleanLine s).data) = (cleanLine s).data :=
    noiseReplace_eq_self (fun c hc => (kept_char_facts (hkept c hc)).2.2.2)
  have hdis : stripDisallowed ((cleanLine s).data) = (cleanLine s).data :=
    List.filter_eq_self.mpr (fun c hc => hkept c hc)
  have hkf0 : kFreeAux true [] (kExpandAux true []
      (stripDisallowed (noiseReplace (stripColons (stripAngles
        (pyStrip (s.data.map asciiLower))))))) = true :=
    kFree_of_kExpand _ _ true [] le_rfl rfl
  have hkf1 : kFreeAux true [] (squeezeAux false (kExpandAux true []
      (stripDisallowed (noiseReplace (stripColons (stripAngles
        (pyStrip (s.data.map asciiLower)))))))) = true :=
    kFree_squeeze _ true [] false (fun hx => nomatch hx) hkf0
  have hkfree : kFreeAux true [] ((cleanLine s).data) = true :=
    kFree_pyStrip hkf1
  have hkexp : kExpand ((cleanLine s).data) = (cleanLine s).data := by
    rw [kExpand, kExpandAux_of_kFree true [] hkfree, List.nil_append]
  have hall : ∀ c ∈ (cleanLine s).data, isPyWs c = true → c = ' ' := by
    intro c hc hw
    have hc2 : c ∈ squeezeAux false (kExpandAux true []
        (stripDisallowed (noiseReplace (stripColons (stripAngles
          (pyStrip (s.data.map asciiLower))))))) := mem_pyStrip hc
    exact squeezeAux_all_space _ false c hc2 hw
  have hchain0 := squeezeAux_chain (kExpandAux true []
      (stripDisallowed (noiseReplace (stripColons (stripAngles
        (pyStrip (s.data.map asciiLower))))))) false
  have hchain : List.Chain' (fun a b => isPyWs a = true → isPyWs b = false)
      ((cleanLine s).data) := nwp_pyStrip hchain0
  have hsq : squeezeWs ((cleanLine s).data) = (cleanLine s).data :=
    squeezeAux_eq_self _ false hall hchain (fun hx => nomatch hx)
  show (⟨pyStrip (squeezeWs (kExpand (stripDisallowed (noiseReplace
      (stripColons (stripAngles (pyStrip ((cleanLine s).data.map
        asciiLower))))))))⟩ : String) = cleanLine s
  rw [hl1, hstrip, hang, hcol, hnoise, hdis, hkexp, hsq, hstrip]

end KiranaPlus
